import Mathlib

/-!
# Verification of a GF(2^m) finite-field arithmetic engine

This file develops a shallow embedding of the multi-limb binary-field
arithmetic engine (carryless word multiplication, schoolbook widening
polynomial multiplication, polynomial division with remainder, modular
inversion by the extended Euclidean algorithm, and the three concrete
fields GF(2^128), GF(2^192), GF(2^256)) and proves the specification
claims about it.

Polynomials over GF(2) are represented by natural numbers: bit `i` of
`n : Nat` is the coefficient of `X^i`.  The bridge `toPoly : Nat →
Polynomial (ZMod 2)` transports computable facts about the embedding
into `Polynomial (ZMod 2)` where Mathlib's algebra is available.
-/

set_option maxHeartbeats 1600000
set_option maxRecDepth 40000

open Polynomial in
/-- Interpret a natural number as a polynomial over GF(2): bit `i` is the
coefficient of `X^i`. -/
noncomputable def toPoly (n : Nat) : Polynomial (ZMod 2) :=
  if n = 0 then 0 else Polynomial.C ((n % 2 : Nat) : ZMod 2) + toPoly (n / 2) * Polynomial.X
  termination_by n
  decreasing_by exact Nat.div_lt_self (Nat.pos_of_ne_zero (by assumption)) one_lt_two

/-- Fueled carryless (GF(2)-polynomial) multiplication on the bit
representation: the fundamental semantic operation the engine implements.
`fuel` bounds the number of bits of `b` that are consumed. -/
def clmulAux : Nat → Nat → Nat → Nat
  | 0, _, _ => 0
  | fuel + 1, a, b => (if b % 2 = 1 then a else 0) ^^^ ((clmulAux fuel a (b / 2)) <<< 1)

/-- Total carryless multiplication; fuel `b` always suffices because `b < 2 ^ b`. -/
def clmulNat (a b : Nat) : Nat := clmulAux b a b

theorem toPoly_def (n : Nat) :
    toPoly n =
      if n = 0 then 0
      else Polynomial.C ((n % 2 : Nat) : ZMod 2) + toPoly (n / 2) * Polynomial.X := by
  rw [toPoly]

@[simp] theorem toPoly_zero : toPoly 0 = 0 := by rw [toPoly_def]; simp

theorem toPoly_coeff (n k : Nat) :
    (toPoly n).coeff k = if n.testBit k then 1 else 0 := by
  induction n using Nat.strong_induction_on generalizing k with
  | _ n ih =>
    rcases Nat.eq_zero_or_pos n with hn | hn
    · subst hn; simp
    rw [toPoly_def, if_neg (Nat.pos_iff_ne_zero.mp hn)]
    cases k with
    | zero =>
      simp only [Polynomial.coeff_add, Polynomial.coeff_C_zero, Polynomial.coeff_mul_X_zero,
        add_zero, Nat.testBit_zero]
      rcases Nat.mod_two_eq_zero_or_one n with h2 | h2 <;> simp [h2]
    | succ k =>
      have hd : n / 2 < n := Nat.div_lt_self hn one_lt_two
      simp only [Polynomial.coeff_add, Polynomial.coeff_C, Polynomial.coeff_mul_X,
        Nat.succ_ne_zero, if_false, zero_add, ih _ hd k, Nat.testBit_succ]

theorem toPoly_inj {a b : Nat} (h : toPoly a = toPoly b) : a = b := by
  refine Nat.eq_of_testBit_eq fun i => ?_
  have := congrArg (fun p => Polynomial.coeff p i) h
  simp only [toPoly_coeff] at this
  by_cases ha : a.testBit i <;> by_cases hb : b.testBit i <;>
    simp [ha, hb] at this ⊢

theorem toPoly_eq_iff {a b : Nat} : toPoly a = toPoly b ↔ a = b :=
  ⟨toPoly_inj, fun h => h ▸ rfl⟩

@[simp] theorem toPoly_one : toPoly 1 = 1 := by
  apply Polynomial.ext; intro k
  rw [toPoly_coeff, Polynomial.coeff_one]
  rcases Nat.eq_zero_or_pos k with hk | hk
  · subst hk; simp
  · simp [Nat.testBit_one_eq_true_iff_self_eq_zero, Nat.pos_iff_ne_zero.mp hk,
      (Nat.pos_iff_ne_zero.mp hk : k ≠ 0).symm]

@[simp] theorem toPoly_two : toPoly 2 = Polynomial.X := by
  apply Polynomial.ext; intro k
  rw [toPoly_coeff, Polynomial.coeff_X]
  have ht : Nat.testBit 2 k = decide (1 = k) := by
    have : Nat.testBit (2 ^ 1) k = decide (1 = k) := by
      rw [Nat.testBit_two_pow]
    simpa using this
  rw [ht]
  by_cases hk : (1 : Nat) = k <;> simp [hk]

theorem toPoly_xor (a b : Nat) : toPoly (a ^^^ b) = toPoly a + toPoly b := by
  apply Polynomial.ext; intro k
  simp only [toPoly_coeff, Polynomial.coeff_add, Nat.testBit_xor]
  by_cases h1 : a.testBit k <;> by_cases h2 : b.testBit k <;> simp [h1, h2] <;> decide

theorem toPoly_shiftLeft (a s : Nat) : toPoly (a <<< s) = toPoly a * Polynomial.X ^ s := by
  apply Polynomial.ext; intro k
  rw [toPoly_coeff, Polynomial.coeff_mul_X_pow', Nat.testBit_shiftLeft]
  by_cases hs : s ≤ k
  · simp [hs, toPoly_coeff]
  · simp [hs, decide_eq_true_eq]

theorem clmulAux_zero_right (fuel a : Nat) : clmulAux fuel a 0 = 0 := by
  induction fuel with
  | zero => rfl
  | succ fuel ih => simp [clmulAux, ih]

theorem toPoly_clmulAux (fuel a b : Nat) (hb : b < 2 ^ fuel) :
    toPoly (clmulAux fuel a b) = toPoly a * toPoly b := by
  induction fuel generalizing b with
  | zero =>
    interval_cases b
    simp [clmulAux]
  | succ fuel ih =>
    rcases Nat.eq_zero_or_pos b with hb0 | hb0
    · subst hb0; simp [clmulAux_zero_right]
    have hdiv : b / 2 < 2 ^ fuel := by
      rw [Nat.div_lt_iff_lt_mul two_pos]
      calc b < 2 ^ (fuel + 1) := hb
        _ = 2 ^ fuel * 2 := by rw [Nat.pow_succ]
    rw [clmulAux, toPoly_xor, toPoly_shiftLeft, pow_one, ih _ hdiv]
    conv_rhs => rw [toPoly_def b, if_neg (Nat.pos_iff_ne_zero.mp hb0)]
    rcases Nat.mod_two_eq_zero_or_one b with h2 | h2 <;>
      · simp [h2]; ring

theorem toPoly_clmulNat (a b : Nat) : toPoly (clmulNat a b) = toPoly a * toPoly b :=
  toPoly_clmulAux b a b (Nat.lt_two_pow b)

theorem clmulAux_eq_clmulNat (fuel a b : Nat) (hb : b < 2 ^ fuel) :
    clmulAux fuel a b = clmulNat a b :=
  toPoly_inj (by rw [toPoly_clmulAux fuel a b hb, toPoly_clmulNat])

theorem clmulNat_comm (a b : Nat) : clmulNat a b = clmulNat b a :=
  toPoly_inj (by rw [toPoly_clmulNat, toPoly_clmulNat, mul_comm])

theorem clmulNat_xor_left (a b c : Nat) :
    clmulNat (a ^^^ b) c = clmulNat a c ^^^ clmulNat b c :=
  toPoly_inj (by simp [toPoly_clmulNat, toPoly_xor, add_mul])

theorem clmulNat_xor_right (a b c : Nat) :
    clmulNat a (b ^^^ c) = clmulNat a b ^^^ clmulNat a c :=
  toPoly_inj (by simp [toPoly_clmulNat, toPoly_xor, mul_add])

theorem clmulNat_one_left (a : Nat) : clmulNat 1 a = a :=
  toPoly_inj (by simp [toPoly_clmulNat])

theorem clmulNat_one_right (a : Nat) : clmulNat a 1 = a :=
  toPoly_inj (by simp [toPoly_clmulNat])

theorem clmulNat_zero_left (a : Nat) : clmulNat 0 a = 0 :=
  toPoly_inj (by simp [toPoly_clmulNat])

theorem clmulNat_shiftLeft_left (a b s : Nat) :
    clmulNat (a <<< s) b = (clmulNat a b) <<< s :=
  toPoly_inj (by rw [toPoly_clmulNat, toPoly_shiftLeft, toPoly_shiftLeft, toPoly_clmulNat]; ring)

theorem clmulNat_shiftLeft_right (a b s : Nat) :
    clmulNat a (b <<< s) = (clmulNat a b) <<< s :=
  toPoly_inj (by rw [toPoly_clmulNat, toPoly_shiftLeft, toPoly_shiftLeft, toPoly_clmulNat]; ring)

theorem clmulNat_two_pow_left (a s : Nat) : clmulNat (1 <<< s) a = a <<< s := by
  rw [clmulNat_comm, clmulNat_shiftLeft_right, clmulNat_one_right]

theorem clmulAux_lt (fuel a b k : Nat) (ha : a < 2 ^ k) :
    clmulAux fuel a b < 2 ^ (k + fuel) := by
  induction fuel generalizing b with
  | zero => simpa [clmulAux] using Nat.pos_pow_of_pos _ two_pos
  | succ fuel ih =>
    rw [clmulAux]
    apply Nat.xor_lt_two_pow
    · have : a < 2 ^ (k + (fuel + 1)) :=
        lt_of_lt_of_le ha (Nat.pow_le_pow_right two_pos (Nat.le_add_right _ _))
      split <;> [exact this; exact Nat.pos_pow_of_pos _ two_pos]
    · have := ih (b / 2)
      calc (clmulAux fuel a (b / 2)) <<< 1 = (clmulAux fuel a (b / 2)) * 2 := by
            rw [Nat.shiftLeft_eq, pow_one]
        _ < 2 ^ (k + fuel) * 2 := by omega
        _ = 2 ^ (k + (fuel + 1)) := by rw [← Nat.pow_succ]; rfl

theorem xor_shiftLeft (x y k : Nat) : (x ^^^ y) <<< k = (x <<< k) ^^^ (y <<< k) :=
  toPoly_inj (by simp [toPoly_xor, toPoly_shiftLeft, add_mul])

theorem shiftLeft_shiftLeft (x m n : Nat) : (x <<< m) <<< n = x <<< (m + n) :=
  toPoly_inj (by simp [toPoly_shiftLeft, pow_add, mul_assoc])

/-- Bits of `x <<< k` and of `y < 2 ^ k` never overlap, so XOR agrees with
addition there. -/
theorem shiftLeft_xor_eq_add {y k : Nat} (x : Nat) (hy : y < 2 ^ k) :
    (x <<< k) ^^^ y = x <<< k + y := by
  have hor : (x <<< k) ^^^ y = (x <<< k) ||| y := by
    apply Nat.eq_of_testBit_eq
    intro i
    rcases lt_or_le i k with hik | hik
    · have hx : (x <<< k).testBit i = false := by
        simp [Nat.testBit_shiftLeft, Nat.not_le.mpr hik]
      simp [Nat.testBit_xor, Nat.testBit_or, hx]
    · have hyb : y.testBit i = false :=
        Nat.testBit_lt_two_pow (lt_of_lt_of_le hy (Nat.pow_le_pow_right two_pos hik))
      simp [Nat.testBit_xor, Nat.testBit_or, hyb]
  rw [hor, Nat.shiftLeft_eq, mul_comm, ← Nat.mul_add_lt_is_or hy]

theorem one_shiftLeft_and_ne_zero_iff {b i : Nat} : (1 <<< i) &&& b ≠ 0 ↔ b.testBit i = true := by
  have h2 : (1 : Nat) <<< i = 2 ^ i := by rw [Nat.shiftLeft_eq, one_mul]
  constructor
  · intro h
    by_contra hbit
    apply h
    apply Nat.eq_of_testBit_eq
    intro j
    rcases eq_or_ne j i with rfl | hji
    · simp only [Nat.testBit_and, h2, Nat.testBit_two_pow_self, Bool.true_and,
        Nat.zero_testBit]
      exact eq_false_of_ne_true hbit
    · simp [Nat.testBit_and, h2, Nat.testBit_two_pow_of_ne (Ne.symm hji)]
  · intro hbit h
    have := congrArg (fun n => n.testBit i) h
    simp [Nat.testBit_and, h2, Nat.testBit_two_pow_self, hbit] at this

/-- Splitting off the top bit of the fuel: `clmulAux (n+1)` adds the
contribution of bit `n` of `b` to `clmulAux n`. -/
theorem clmulAux_succ_top (a : Nat) : ∀ n b : Nat,
    clmulAux (n + 1) a b = clmulAux n a b ^^^ (if b.testBit n then a <<< n else 0) := by
  intro n
  induction n with
  | zero =>
    intro b
    simp only [clmulAux, Nat.shiftLeft_zero, Nat.zero_xor, Nat.testBit_zero]
    rcases Nat.mod_two_eq_zero_or_one b with h2 | h2 <;> simp [h2]
  | succ n ih =>
    intro b
    have hTop : (if (b / 2).testBit n then a <<< n else 0) <<< 1
        = (if b.testBit (n + 1) then a <<< (n + 1) else 0) := by
      rw [Nat.testBit_add_one]
      split
      · rw [shiftLeft_shiftLeft]
      · rfl
    have hstep : clmulAux (n + 2) a b
        = (if b % 2 = 1 then a else 0) ^^^ ((clmulAux (n + 1) a (b / 2)) <<< 1) := rfl
    have hstep1 : clmulAux (n + 1) a b
        = (if b % 2 = 1 then a else 0) ^^^ ((clmulAux n a (b / 2)) <<< 1) := rfl
    rw [hstep, ih (b / 2), xor_shiftLeft, hTop, hstep1, Nat.xor_assoc]

/-- The word type of the engine (`pub type Word = u16`). -/
def wordBits : Nat := 16

/-- The "widening left shift" high part computed inside `widening_clmul`
(src/lib.rs): `a.overflowing_shr(Word::BITS - i)`, with the result replaced
by `0` when the shift amount overflows (which happens exactly for `i = 0`). -/
def wshiftHigh (a i : Nat) : Nat :=
  if wordBits ≤ wordBits - i then 0 else a >>> (wordBits - i)

/-- The "widening left shift" low part computed inside `widening_clmul`
(src/lib.rs): `a.overflowing_shl(i)`, truncated to the 16-bit word width. -/
def wshiftLow (a i : Nat) : Nat := (a <<< i) % 2 ^ wordBits

/-- Embedding of `widening_clmul` from src/lib.rs: carryless multiplication of
two 16-bit words, returning the (high, low) halves of the 32-bit product. -/
def widening_clmul (a b : Nat) : Nat × Nat :=
  (List.range wordBits).foldl
    (fun prod i =>
      if (1 <<< i) &&& b ≠ 0 then (prod.1 ^^^ wshiftHigh a i, prod.2 ^^^ wshiftLow a i)
      else prod)
    (0, 0)

/-- The combined double-width value of a (high, low) pair of words. -/
def pairVal (p : Nat × Nat) : Nat := (p.1 <<< wordBits) ^^^ p.2

/-- For words `a < 2^16` and `0 ≤ i < 16` the two halves of the widening
shift re-combine to the exact shift `a <<< i`. -/
theorem wshift_combine {a : Nat} (ha : a < 2 ^ wordBits) {i : Nat} (hi : i < wordBits) :
    (wshiftHigh a i <<< wordBits) ^^^ wshiftLow a i = a <<< i := by
  have hlow : wshiftLow a i < 2 ^ wordBits := Nat.mod_lt _ (Nat.pos_pow_of_pos _ two_pos)
  rcases Nat.eq_zero_or_pos i with rfl | hpos
  · have hhigh : wshiftHigh a 0 = 0 := by simp [wshiftHigh]
    have hlow0 : wshiftLow a 0 = a := by
      simp [wshiftLow, Nat.shiftLeft_zero, Nat.mod_eq_of_lt ha]
    simp [hhigh, hlow0, Nat.shiftLeft_zero]
  · have hs : wordBits - i < wordBits := by omega
    have hhigh : wshiftHigh a i = a >>> (wordBits - i) := by
      simp [wshiftHigh, Nat.not_le.mpr hs]
    rw [hhigh, shiftLeft_xor_eq_add _ hlow]
    have hdiv : a >>> (wordBits - i) = (a <<< i) / 2 ^ wordBits := by
      rw [Nat.shiftRight_eq_div_pow, Nat.shiftLeft_eq]
      have hsplit : (2 : Nat) ^ wordBits = 2 ^ i * 2 ^ (wordBits - i) := by
        rw [← pow_add]
        congr 1
        omega
      rw [hsplit, mul_comm a (2 ^ i), Nat.mul_div_mul_left _ _ (Nat.pos_pow_of_pos _ two_pos)]
    rw [hdiv]
    show (a <<< i / 2 ^ wordBits) <<< wordBits + (a <<< i) % 2 ^ wordBits = a <<< i
    rw [Nat.shiftLeft_eq (a <<< i / 2 ^ wordBits) wordBits]
    exact Nat.div_add_mod' _ _

theorem widening_clmul_pairVal (a b : Nat) (ha : a < 2 ^ wordBits) :
    pairVal (widening_clmul a b) = clmulAux wordBits a b := by
  suffices h : ∀ n, n ≤ wordBits →
      pairVal ((List.range n).foldl
        (fun prod i =>
          if (1 <<< i) &&& b ≠ 0 then (prod.1 ^^^ wshiftHigh a i, prod.2 ^^^ wshiftLow a i)
          else prod)
        (0, 0)) = clmulAux n a b by
    exact h wordBits le_rfl
  intro n hn
  induction n with
  | zero => simp [pairVal, clmulAux]
  | succ n ih =>
    rw [List.range_succ, List.foldl_append, List.foldl_cons, List.foldl_nil,
      clmulAux_succ_top, ← ih (Nat.le_of_succ_le hn)]
    set p := (List.range n).foldl
        (fun prod i =>
          if (1 <<< i) &&& b ≠ 0 then (prod.1 ^^^ wshiftHigh a i, prod.2 ^^^ wshiftLow a i)
          else prod)
        (0, 0) with hp
    by_cases hbit : b.testBit n = true
    · rw [if_pos (one_shiftLeft_and_ne_zero_iff.mpr hbit), if_pos hbit]
      show (p.1 ^^^ wshiftHigh a n) <<< wordBits ^^^ (p.2 ^^^ wshiftLow a n)
          = pairVal p ^^^ a <<< n
      rw [xor_shiftLeft, ← wshift_combine ha (by omega), pairVal]
      have h1 := Nat.xor_assoc (p.1 <<< wordBits) (wshiftHigh a n <<< wordBits)
        (p.2 ^^^ wshiftLow a n)
      rw [h1]
      rw [Nat.xor_comm (wshiftHigh a n <<< wordBits) (p.2 ^^^ wshiftLow a n)]
      rw [Nat.xor_assoc p.2 (wshiftLow a n) (wshiftHigh a n <<< wordBits)]
      rw [Nat.xor_comm (wshiftLow a n) (wshiftHigh a n <<< wordBits)]
      rw [← Nat.xor_assoc (p.1 <<< wordBits) p.2 _]
    · rw [if_neg (fun hne => hbit (one_shiftLeft_and_ne_zero_iff.mp hne)),
        if_neg (fun h => hbit h)]
      simp

theorem widening_clmul_bounds (a b : Nat) (ha : a < 2 ^ wordBits) :
    (widening_clmul a b).1 < 2 ^ wordBits ∧ (widening_clmul a b).2 < 2 ^ wordBits := by
  unfold widening_clmul
  generalize List.range wordBits = l
  induction l using List.reverseRecOn with
  | nil => exact ⟨Nat.pos_pow_of_pos _ two_pos, Nat.pos_pow_of_pos _ two_pos⟩
  | append_singleton l i ih =>
    rw [List.foldl_append, List.foldl_cons, List.foldl_nil]
    split
    · constructor
      · apply Nat.xor_lt_two_pow ih.1
        unfold wshiftHigh
        split
        · exact Nat.pos_pow_of_pos _ two_pos
        · calc a >>> (wordBits - i) = a / 2 ^ (wordBits - i) := Nat.shiftRight_eq_div_pow _ _
            _ ≤ a := Nat.div_le_self _ _
            _ < 2 ^ wordBits := ha
      · exact Nat.xor_lt_two_pow ih.2 (Nat.mod_lt _ (Nat.pos_pow_of_pos _ two_pos))
    · exact ih

/-- Recover the pair from its combined value, assuming the low half is in range. -/
theorem pairVal_pair_eq {p q : Nat × Nat} (hpv : pairVal p = pairVal q)
    (hp : p.2 < 2 ^ wordBits) (hq : q.2 < 2 ^ wordBits) : p = q := by
  rw [pairVal, pairVal, shiftLeft_xor_eq_add _ hp, shiftLeft_xor_eq_add _ hq,
    Nat.shiftLeft_eq, Nat.shiftLeft_eq] at hpv
  have hWpos : 0 < 2 ^ wordBits := Nat.pos_pow_of_pos _ two_pos
  have hmod : ∀ x y : Nat, y < 2 ^ wordBits → (x * 2 ^ wordBits + y) % 2 ^ wordBits = y :=
    fun x y hy => by rw [mul_comm, Nat.mul_add_mod, Nat.mod_eq_of_lt hy]
  have hdiv : ∀ x y : Nat, y < 2 ^ wordBits → (x * 2 ^ wordBits + y) / 2 ^ wordBits = x :=
    fun x y hy => by rw [mul_comm, Nat.mul_add_div hWpos, Nat.div_eq_of_lt hy, add_zero]
  have h2 : p.2 = q.2 := by
    rw [← hmod p.1 p.2 hp, ← hmod q.1 q.2 hq, hpv]
  have h1 : p.1 = q.1 := by
    rw [← hdiv p.1 p.2 hp, ← hdiv q.1 q.2 hq, hpv]
  exact Prod.ext h1 h2

theorem clmulAux_zero_left (fuel b : Nat) : clmulAux fuel 0 b = 0 := by
  induction fuel generalizing b with
  | zero => rfl
  | succ fuel ih => simp [clmulAux, ih]

/-- The GF(2) convolution coefficient at position `k`: the sum (in GF(2)) over
all `i + j = k` of (bit `i` of `a`) AND (bit `j` of `b`). -/
def convParity (a b k : Nat) : ZMod 2 :=
  ∑ i ∈ Finset.range (k + 1), (if a.testBit i ∧ b.testBit (k - i) then 1 else 0)

theorem toPoly_coeff_mul (a b k : Nat) :
    (toPoly a * toPoly b).coeff k = convParity a b k := by
  rw [Polynomial.coeff_mul, Finset.Nat.sum_antidiagonal_eq_sum_range_succ_mk]
  apply Finset.sum_congr rfl
  intro i _
  rw [toPoly_coeff, toPoly_coeff]
  by_cases h1 : a.testBit i <;> by_cases h2 : b.testBit (k - i) <;> simp [h1, h2]

theorem testBit_clmulNat_iff (a b k : Nat) :
    (clmulNat a b).testBit k = true ↔ convParity a b k = 1 := by
  have h := toPoly_coeff (clmulNat a b) k
  rw [toPoly_clmulNat, toPoly_coeff_mul] at h
  cases hbit : (clmulNat a b).testBit k <;> rw [hbit] at h
  · simp only [Bool.false_eq_true, false_iff]
    simp only [if_neg (fun hfalse : false = true => Bool.noConfusion hfalse)] at h
    exact fun hc => one_ne_zero (hc ▸ h)
  · simp only [if_pos rfl] at h
    simp [h]

theorem widening_clmul_zero_left (x : Nat) : widening_clmul 0 x = (0, 0) := by
  have hb := widening_clmul_bounds 0 x (Nat.pos_pow_of_pos _ two_pos)
  apply pairVal_pair_eq _ hb.2 (Nat.pos_pow_of_pos _ two_pos)
  rw [widening_clmul_pairVal 0 x (Nat.pos_pow_of_pos _ two_pos), clmulAux_zero_left]
  simp [pairVal]

/-- C5: for all words `a`, `b` and every bit position `k < 2·WordBits`, bit `k`
of the double-width value (high:low) returned by `widening_clmul a b` equals
the XOR over all `i + j = k` of (bit `i` of `a`) AND (bit `j` of `b`); moreover
`widening_clmul 0 x = (0, 0)` for all `x`,
`widening_clmul 15 15 = (0, 0b1010101)`, and
`widening_clmul 0xFFFF 0xFFFF = (0x5555, 0x5555)`. -/
theorem claim_C5 :
    (∀ a b k : Nat, a < 2 ^ wordBits → b < 2 ^ wordBits → k < 2 * wordBits →
      (((widening_clmul a b).1 * 2 ^ wordBits + (widening_clmul a b).2).testBit k = true ↔
        convParity a b k = 1))
    ∧ (∀ x : Nat, widening_clmul 0 x = (0, 0))
    ∧ widening_clmul 15 15 = (0, 0b1010101)
    ∧ widening_clmul 0xFFFF 0xFFFF = (0x5555, 0x5555) := by
  refine ⟨?_, widening_clmul_zero_left, by decide, by decide⟩
  intro a b k ha hb _
  have hcombined : (widening_clmul a b).1 * 2 ^ wordBits + (widening_clmul a b).2
      = clmulNat a b := by
    have hlow := (widening_clmul_bounds a b ha).2
    have h := widening_clmul_pairVal a b ha
    rw [pairVal, shiftLeft_xor_eq_add _ hlow, Nat.shiftLeft_eq] at h
    rw [h, clmulAux_eq_clmulNat _ _ _ hb]
  rw [hcombined]
  exact testBit_clmulNat_iff a b k

/-- Witness for C5 at a = 3, b = 5, k = 2. -/
theorem claim_C5_witness :
    ((widening_clmul 3 5).1 * 2 ^ wordBits + (widening_clmul 3 5).2).testBit 2 = true :=
  (claim_C5.1 3 5 2 (by decide) (by decide) (by decide)).mpr (by decide)

/-- C6: inside `widening_clmul`, the widening left shift by `i = 0` positions
yields high = 0 and low = a unchanged (the overflowing right shift by
`Word::BITS` is replaced by 0); equivalently `widening_clmul a 1 = (0, a)` for
every word `a`. -/
theorem claim_C6 :
    ∀ a : Nat, a < 2 ^ wordBits →
      wshiftHigh a 0 = 0 ∧ wshiftLow a 0 = a ∧ widening_clmul a 1 = (0, a) := by
  intro a ha
  refine ⟨by simp [wshiftHigh], by simp [wshiftLow, Nat.mod_eq_of_lt ha], ?_⟩
  have hb := widening_clmul_bounds a 1 ha
  apply pairVal_pair_eq _ hb.2 ha
  rw [widening_clmul_pairVal a 1 ha,
    clmulAux_eq_clmulNat _ _ _ (by norm_num [wordBits]), clmulNat_one_right]
  simp [pairVal]

/-- Witness for C6 at a = 7. -/
theorem claim_C6_witness :
    wshiftHigh 7 0 = 0 ∧ wshiftLow 7 0 = 7 ∧ widening_clmul 7 1 = (0, 7) :=
  claim_C6 7 (by decide)

namespace ExtField2

/-- `ExtField2::zero` (src/lib.rs): the all-zero limb array. -/
def zero (L : Nat) : List Nat := List.replicate L 0

/-- The limb array built by `ExtField2::one` (src/lib.rs): all zeros except
limb `L - 1`, which is set to `1`. -/
def one (L : Nat) : List Nat := (List.replicate L 0).set (L - 1) 1

/-- `ExtField2::one` (src/lib.rs) writes limb index `L - 1`; in Rust this
indexing is out of bounds when `L = 0`, so the embedding guards it with the
bounds check the Rust runtime performs. -/
def one? (L : Nat) : Option (List Nat) :=
  if L - 1 < L then some ((List.replicate L 0).set (L - 1) 1) else none

/-- `ExtField2::gf_add` (src/lib.rs): limb-wise XOR, `limbs[i] = a[i] ^ b[i]`
for `i < L`. -/
def gf_add (L : Nat) (a b : List Nat) : List Nat :=
  (List.range L).map (fun i => a.getD i 0 ^^^ b.getD i 0)

/-- `ExtField2::gf_sub` (src/lib.rs): identical to addition. -/
def gf_sub (L : Nat) (a b : List Nat) : List Nat := gf_add L a b

/-- The loop body of `ExtField2::widening_gf_mul` (src/lib.rs) for a fixed pair
of limb indices `(i, j)`: carryless-multiply limbs `L-i-1` of `a` and `L-j-1`
of `b` and XOR the low half of the product into word position `i + j` and the
high half into word position `i + j + 1`, positions `≥ L` landing in the high
output half (offset by `L`). -/
def mulStep (L : Nat) (a b : List Nat) (i j : Nat) (hl : List Nat × List Nat) :
    List Nat × List Nat :=
  let hi_lo := widening_clmul (a.getD (L - i - 1) 0) (b.getD (L - j - 1) 0)
  let hl1 :=
    if i + j < L then
      (hl.1, hl.2.set (L - (i + j) - 1) (hl.2.getD (L - (i + j) - 1) 0 ^^^ hi_lo.2))
    else
      (hl.1.set (L - (i + j - L) - 1) (hl.1.getD (L - (i + j - L) - 1) 0 ^^^ hi_lo.2),
        hl.2)
  if i + j + 1 < L then
    (hl1.1, hl1.2.set (L - (i + j + 1) - 1)
      (hl1.2.getD (L - (i + j + 1) - 1) 0 ^^^ hi_lo.1))
  else
    (hl1.1.set (L - (i + j + 1 - L) - 1)
      (hl1.1.getD (L - (i + j + 1 - L) - 1) 0 ^^^ hi_lo.1), hl1.2)

/-- `ExtField2::widening_gf_mul` (src/lib.rs): schoolbook multiplication with
L² carryless word products, the two nested loops running `i` and `j` from the
least-significant limb inward. -/
def widening_gf_mul (L : Nat) (a b : List Nat) : List Nat × List Nat :=
  (List.range L).foldl
    (fun hl i => (List.range L).foldl (fun hl j => mulStep L a b i j hl) hl)
    (zero L, zero L)

end ExtField2

/-- Big-endian value of a limb list as a GF(2) polynomial in bit
representation: the head limb carries the highest word position. -/
def beVal : List Nat → Nat
  | [] => 0
  | w :: ws => (w <<< (wordBits * ws.length)) ^^^ beVal ws

@[simp] theorem beVal_nil : beVal [] = 0 := rfl

theorem beVal_cons (w : Nat) (ws : List Nat) :
    beVal (w :: ws) = (w <<< (wordBits * ws.length)) ^^^ beVal ws := rfl

theorem beVal_replicate_zero (L : Nat) : beVal (List.replicate L 0) = 0 := by
  induction L with
  | zero => rfl
  | succ L ih => simp [List.replicate_succ, beVal_cons, ih]

theorem beVal_lt (l : List Nat) (h : ∀ w ∈ l, w < 2 ^ wordBits) :
    beVal l < 2 ^ (wordBits * l.length) := by
  induction l with
  | nil => simp [Nat.pos_pow_of_pos]
  | cons w ws ih =>
    rw [beVal_cons]
    apply Nat.xor_lt_two_pow
    · have hw : w < 2 ^ wordBits := h w (List.mem_cons_self _ _)
      calc w <<< (wordBits * ws.length) = w * 2 ^ (wordBits * ws.length) :=
            Nat.shiftLeft_eq _ _
        _ < 2 ^ wordBits * 2 ^ (wordBits * ws.length) := by
            have := Nat.pos_pow_of_pos (wordBits * ws.length) two_pos
            exact Nat.mul_lt_mul_of_lt_of_le hw le_rfl this
        _ = 2 ^ (wordBits * (w :: ws).length) := by
            rw [← pow_add, List.length_cons]
            ring_nf
    · have := ih (fun x hx => h x (List.mem_cons_of_mem _ hx))
      calc beVal ws < 2 ^ (wordBits * ws.length) := this
        _ ≤ 2 ^ (wordBits * (w :: ws).length) := by
            apply Nat.pow_le_pow_right two_pos
            simp [List.length_cons, Nat.mul_le_mul_left]
        
theorem beVal_set (l : List Nat) (idx x : Nat) (h : idx < l.length) :
    beVal (l.set idx (l.getD idx 0 ^^^ x))
      = beVal l ^^^ (x <<< (wordBits * (l.length - idx - 1))) := by
  induction l generalizing idx with
  | nil => simp at h
  | cons w ws ih =>
    cases idx with
    | zero =>
      simp only [List.set_cons_zero, List.getD_cons_zero, beVal_cons, List.length_cons,
        Nat.add_sub_cancel]
      rw [xor_shiftLeft]
      show w <<< (wordBits * ws.length) ^^^ x <<< (wordBits * ws.length) ^^^ beVal ws
        = w <<< (wordBits * ws.length) ^^^ beVal ws ^^^ x <<< (wordBits * (ws.length + 1 - 0 - 1))
      have : ws.length + 1 - 0 - 1 = ws.length := by omega
      rw [this, Nat.xor_assoc, Nat.xor_assoc,
        Nat.xor_comm (x <<< (wordBits * ws.length)) (beVal ws)]
    | succ idx =>
      have hidx : idx < ws.length := by simpa using h
      simp only [List.set_cons_succ, List.getD_cons_succ, beVal_cons, List.length_set,
        List.length_cons]
      rw [ih idx hidx, ← Nat.xor_assoc]
      have : ws.length + 1 - (idx + 1) - 1 = ws.length - idx - 1 := by omega
      rw [this]

theorem clmulNat_zero_right (a : Nat) : clmulNat a 0 = 0 := rfl

/-- Fold two folds in lockstep along a relation. -/
theorem foldl_rel {α β γ : Type _} (R : α → β → Prop) (f : α → γ → α) (g : β → γ → β) :
    ∀ (l : List γ) (a : α) (b : β), R a b →
      (∀ x y c, c ∈ l → R x y → R (f x c) (g y c)) →
      R (l.foldl f a) (l.foldl g b)
  | [], _, _, h, _ => h
  | c :: l, a, b, h, hstep => by
    rw [List.foldl_cons, List.foldl_cons]
    exact foldl_rel R f g l (f a c) (g b c) (hstep a b c (List.mem_cons_self _ _) h)
      (fun x y d hd hxy => hstep x y d (List.mem_cons_of_mem _ hd) hxy)

/-- A fold preserves an invariant. -/
theorem foldl_inv {α γ : Type _} (P : α → Prop) (f : α → γ → α) :
    ∀ (l : List γ) (a : α), P a → (∀ x c, c ∈ l → P x → P (f x c)) → P (l.foldl f a)
  | [], _, h, _ => h
  | c :: l, a, h, hstep => by
    rw [List.foldl_cons]
    exact foldl_inv P f l (f a c) (hstep a c (List.mem_cons_self _ _) h)
      (fun x d hd hx => hstep x d (List.mem_cons_of_mem _ hd) hx)

theorem foldl_congr_mem {α γ : Type _} (f g : α → γ → α) :
    ∀ (l : List γ) (a : α), (∀ x c, c ∈ l → f x c = g x c) → l.foldl f a = l.foldl g a
  | [], _, _ => rfl
  | c :: l, a, h => by
    rw [List.foldl_cons, List.foldl_cons, h a c (List.mem_cons_self _ _)]
    exact foldl_congr_mem f g l _ (fun x d hd => h x d (List.mem_cons_of_mem _ hd))

/-- XOR-accumulation of `f` over a list of indices. -/
def xorFold (f : Nat → Nat) (l : List Nat) : Nat := l.foldl (fun acc i => acc ^^^ f i) 0

theorem foldl_xor_acc (f : Nat → Nat) :
    ∀ (l : List Nat) (acc : Nat), l.foldl (fun a i => a ^^^ f i) acc = acc ^^^ xorFold f l := by
  intro l
  induction l with
  | nil => simp [xorFold]
  | cons c l ih =>
    intro acc
    rw [xorFold, List.foldl_cons, List.foldl_cons, ih (acc ^^^ f c), ih (0 ^^^ f c)]
    simp [Nat.xor_assoc]

theorem xorFold_cons (f : Nat → Nat) (c : Nat) (l : List Nat) :
    xorFold f (c :: l) = f c ^^^ xorFold f l := by
  rw [xorFold, List.foldl_cons, foldl_xor_acc]
  simp

theorem xorFold_congr {f g : Nat → Nat} :
    ∀ {l : List Nat}, (∀ c ∈ l, f c = g c) → xorFold f l = xorFold g l
  | [], _ => rfl
  | c :: l, h => by
    rw [xorFold_cons, xorFold_cons, h c (List.mem_cons_self _ _),
      xorFold_congr (fun d hd => h d (List.mem_cons_of_mem _ hd))]

theorem clmul_xorFold_left (y : Nat) (f : Nat → Nat) :
    ∀ (l : List Nat), clmulNat (xorFold f l) y = xorFold (fun i => clmulNat (f i) y) l
  | [] => by simp [xorFold, clmulNat_zero_left]
  | c :: l => by
    rw [xorFold_cons, xorFold_cons, clmulNat_xor_left, clmul_xorFold_left y f l]

theorem clmul_xorFold_right (y : Nat) (f : Nat → Nat) :
    ∀ (l : List Nat), clmulNat y (xorFold f l) = xorFold (fun i => clmulNat y (f i)) l
  | [] => by simp [xorFold, clmulNat_zero_right]
  | c :: l => by
    rw [xorFold_cons, xorFold_cons, clmulNat_xor_right, clmul_xorFold_right y f l]

theorem xorFold_shiftLeft (f : Nat → Nat) (s : Nat) :
    ∀ (l : List Nat), (xorFold f l) <<< s = xorFold (fun i => f i <<< s) l
  | [] => by simp [xorFold]
  | c :: l => by
    rw [xorFold_cons, xorFold_cons, xor_shiftLeft, xorFold_shiftLeft f s l]

/-- Little-endian word-position view of the big-endian limb list value. -/
theorem beVal_eq_xorFold (a : List Nat) (L : Nat) (hla : a.length = L) :
    beVal a = xorFold (fun i => (a.getD (L - i - 1) 0) <<< (wordBits * i)) (List.range L) := by
  induction a generalizing L with
  | nil => subst hla; rfl
  | cons w ws ih =>
    subst hla
    rw [List.length_cons, List.range_succ, beVal_cons, xorFold, List.foldl_append,
      List.foldl_cons, List.foldl_nil]
    have hmatch : (List.range ws.length).foldl
        (fun acc i => acc ^^^ ((w :: ws).getD (ws.length + 1 - i - 1) 0) <<< (wordBits * i)) 0
        = (List.range ws.length).foldl
          (fun acc i => acc ^^^ (ws.getD (ws.length - i - 1) 0) <<< (wordBits * i)) 0 := by
      apply foldl_congr_mem
      intro x c hc
      have hcl : c < ws.length := List.mem_range.mp hc
      have : ws.length + 1 - c - 1 = (ws.length - c - 1) + 1 := by omega
      rw [this, List.getD_cons_succ]
    rw [hmatch]
    show beVal (w :: ws) = _
    rw [← xorFold, ← ih ws.length rfl]
    have hget : (w :: ws).getD (ws.length + 1 - ws.length - 1) 0 = w := by
      have : ws.length + 1 - ws.length - 1 = 0 := by omega
      rw [this, List.getD_cons_zero]
    rw [hget, beVal_cons, Nat.xor_comm]

/-- Split a double-width value into its two halves uniquely. -/
theorem two_pow_split_inj {k x x' y y' : Nat} (hy : y < 2 ^ k) (hy' : y' < 2 ^ k)
    (h : x * 2 ^ k + y = x' * 2 ^ k + y') : x = x' ∧ y = y' := by
  constructor
  · have h1 : (x * 2 ^ k + y) / 2 ^ k = x := by
      rw [mul_comm, Nat.mul_add_div (Nat.pos_pow_of_pos _ two_pos), Nat.div_eq_of_lt hy,
        add_zero]
    have h2 : (x' * 2 ^ k + y') / 2 ^ k = x' := by
      rw [mul_comm, Nat.mul_add_div (Nat.pos_pow_of_pos _ two_pos), Nat.div_eq_of_lt hy',
        add_zero]
    rw [← h1, ← h2, h]
  · have h1 : (x * 2 ^ k + y) % 2 ^ k = y := by
      rw [mul_comm, Nat.mul_add_mod, Nat.mod_eq_of_lt hy]
    have h2 : (x' * 2 ^ k + y') % 2 ^ k = y' := by
      rw [mul_comm, Nat.mul_add_mod, Nat.mod_eq_of_lt hy']
    rw [← h1, ← h2, h]

/-- `beVal` determines a bounded limb list of known length. -/
theorem beVal_inj : ∀ (a b : List Nat), a.length = b.length →
    (∀ w ∈ a, w < 2 ^ wordBits) → (∀ w ∈ b, w < 2 ^ wordBits) →
    beVal a = beVal b → a = b
  | [], [], _, _, _, _ => rfl
  | [], _ :: _, hlen, _, _, _ => by simp at hlen
  | _ :: _, [], hlen, _, _, _ => by simp at hlen
  | w1 :: t1, w2 :: t2, hlen, ha, hb, hval => by
    have hlen' : t1.length = t2.length := by simpa using hlen
    rw [beVal_cons, beVal_cons, hlen'] at hval
    have h1 : beVal t1 < 2 ^ (wordBits * t2.length) := by
      rw [← hlen']
      exact beVal_lt t1 (fun x hx => ha x (List.mem_cons_of_mem _ hx))
    have h2 : beVal t2 < 2 ^ (wordBits * t2.length) :=
      beVal_lt t2 (fun x hx => hb x (List.mem_cons_of_mem _ hx))
    rw [shiftLeft_xor_eq_add _ h1, shiftLeft_xor_eq_add _ h2, Nat.shiftLeft_eq,
      Nat.shiftLeft_eq] at hval
    obtain ⟨hw, ht⟩ := two_pow_split_inj h1 h2 hval
    have htail : t1 = t2 := beVal_inj t1 t2 hlen'
      (fun x hx => ha x (List.mem_cons_of_mem _ hx))
      (fun x hx => hb x (List.mem_cons_of_mem _ hx)) ht
    rw [hw, htail]

/-- Combined double-width value of a (high, low) pair of L-limb big-endian lists. -/
def hlVal (L : Nat) (hl : List Nat × List Nat) : Nat :=
  (beVal hl.1) <<< (wordBits * L) ^^^ beVal hl.2

/-- The contribution of the limb pair `(i, j)` to the widening product. -/
def prodContrib (L : Nat) (a b : List Nat) (i j : Nat) : Nat :=
  pairVal (widening_clmul (a.getD (L - i - 1) 0) (b.getD (L - j - 1) 0))
    <<< (wordBits * (i + j))

theorem hlVal_set_low (L : Nat) (g1 g2 : List Nat) (q x : Nat) (hq : q < L)
    (hlen : g2.length = L) :
    hlVal L (g1, g2.set (L - q - 1) (g2.getD (L - q - 1) 0 ^^^ x))
      = hlVal L (g1, g2) ^^^ (x <<< (wordBits * q)) := by
  unfold hlVal
  simp only
  rw [beVal_set g2 _ x (by rw [hlen]; omega)]
  have hpos : g2.length - (L - q - 1) - 1 = q := by rw [hlen]; omega
  rw [hpos, ← Nat.xor_assoc]

theorem hlVal_set_high (L : Nat) (g1 g2 : List Nat) (q x : Nat) (hqL : L ≤ q)
    (hq : q < 2 * L) (hlen : g1.length = L) :
    hlVal L (g1.set (L - (q - L) - 1) (g1.getD (L - (q - L) - 1) 0 ^^^ x), g2)
      = hlVal L (g1, g2) ^^^ (x <<< (wordBits * q)) := by
  unfold hlVal
  simp only
  rw [beVal_set g1 _ x (by rw [hlen]; omega)]
  have hpos : g1.length - (L - (q - L) - 1) - 1 = q - L := by rw [hlen]; omega
  rw [hpos, xor_shiftLeft, shiftLeft_shiftLeft]
  have hsh : wordBits * (q - L) + wordBits * L = wordBits * q := by
    rw [← Nat.mul_add]
    congr 1
    omega
  rw [hsh, Nat.xor_assoc, Nat.xor_comm (x <<< (wordBits * q)) (beVal g2), ← Nat.xor_assoc]

theorem getD_lt {l : List Nat} {B : Nat} (h : ∀ w ∈ l, w < B) (hB : 0 < B) (k : Nat) :
    l.getD k 0 < B := by
  by_cases hk : k < l.length
  · rw [List.getD_eq_getElem l 0 hk]
    exact h _ (List.getElem_mem hk)
  · rw [List.getD_eq_default l 0 (by omega)]
    exact hB

theorem mulStep_spec (L : Nat) (a b : List Nat) (i j : Nat) (hi : i < L) (hj : j < L)
    (g1 g2 : List Nat) (h1 : g1.length = L) (h2 : g2.length = L) :
    (ExtField2.mulStep L a b i j (g1, g2)).1.length = L ∧
    (ExtField2.mulStep L a b i j (g1, g2)).2.length = L ∧
    hlVal L (ExtField2.mulStep L a b i j (g1, g2))
      = hlVal L (g1, g2) ^^^ prodContrib L a b i j := by
  have hcontrib : prodContrib L a b i j
      = (widening_clmul (a.getD (L - i - 1) 0) (b.getD (L - j - 1) 0)).2
          <<< (wordBits * (i + j))
        ^^^ (widening_clmul (a.getD (L - i - 1) 0) (b.getD (L - j - 1) 0)).1
          <<< (wordBits * (i + j + 1)) := by
    rw [prodContrib, pairVal, xor_shiftLeft, shiftLeft_shiftLeft, Nat.xor_comm]
    have hw : wordBits + wordBits * (i + j) = wordBits * (i + j + 1) := by ring
    rw [hw]
  set wc := widening_clmul (a.getD (L - i - 1) 0) (b.getD (L - j - 1) 0) with hwc
  by_cases hij : i + j < L
  · by_cases hij1 : i + j + 1 < L
    · have hstep : ExtField2.mulStep L a b i j (g1, g2)
          = (g1, (g2.set (L - (i + j) - 1) (g2.getD (L - (i + j) - 1) 0 ^^^ wc.2)).set
              (L - (i + j + 1) - 1)
              ((g2.set (L - (i + j) - 1) (g2.getD (L - (i + j) - 1) 0 ^^^ wc.2)).getD
                (L - (i + j + 1) - 1) 0 ^^^ wc.1)) := by
        rw [ExtField2.mulStep, ← hwc]
        simp only [if_pos hij, if_pos hij1]
      rw [hstep]
      refine ⟨h1, by simp [h2], ?_⟩
      rw [hlVal_set_low L g1 _ (i + j + 1) wc.1 hij1 (by simp [h2]),
        hlVal_set_low L g1 g2 (i + j) wc.2 hij h2, Nat.xor_assoc, hcontrib]
    · have hstep : ExtField2.mulStep L a b i j (g1, g2)
          = (g1.set (L - (i + j + 1 - L) - 1) (g1.getD (L - (i + j + 1 - L) - 1) 0 ^^^ wc.1),
              g2.set (L - (i + j) - 1) (g2.getD (L - (i + j) - 1) 0 ^^^ wc.2)) := by
        rw [ExtField2.mulStep, ← hwc]
        simp only [if_pos hij, if_neg hij1]
      rw [hstep]
      refine ⟨by simp [h1], by simp [h2], ?_⟩
      rw [hlVal_set_high L g1 _ (i + j + 1) wc.1 (by omega) (by omega) h1,
        hlVal_set_low L g1 g2 (i + j) wc.2 hij h2, Nat.xor_assoc, hcontrib]
  · have hij1 : ¬ (i + j + 1 < L) := by omega
    have hstep : ExtField2.mulStep L a b i j (g1, g2)
        = ((g1.set (L - (i + j - L) - 1) (g1.getD (L - (i + j - L) - 1) 0 ^^^ wc.2)).set
            (L - (i + j + 1 - L) - 1)
            ((g1.set (L - (i + j - L) - 1) (g1.getD (L - (i + j - L) - 1) 0 ^^^ wc.2)).getD
              (L - (i + j + 1 - L) - 1) 0 ^^^ wc.1), g2) := by
      rw [ExtField2.mulStep, ← hwc]
      simp only [if_neg hij, if_neg hij1]
    rw [hstep]
    refine ⟨by simp [h1], h2, ?_⟩
    rw [hlVal_set_high L _ g2 (i + j + 1) wc.1 (by omega) (by omega) (by simp [h1]),
      hlVal_set_high L g1 g2 (i + j) wc.2 (by omega) (by omega) h1, Nat.xor_assoc, hcontrib]

theorem mulStep_bounds (L : Nat) (a b : List Nat) (i j : Nat)
    (ha : ∀ w ∈ a, w < 2 ^ wordBits) (g1 g2 : List Nat)
    (h1 : ∀ w ∈ g1, w < 2 ^ wordBits) (h2 : ∀ w ∈ g2, w < 2 ^ wordBits) :
    (∀ w ∈ (ExtField2.mulStep L a b i j (g1, g2)).1, w < 2 ^ wordBits) ∧
    (∀ w ∈ (ExtField2.mulStep L a b i j (g1, g2)).2, w < 2 ^ wordBits) := by
  have hW : (0 : Nat) < 2 ^ wordBits := Nat.pos_pow_of_pos _ two_pos
  have haw : a.getD (L - i - 1) 0 < 2 ^ wordBits := getD_lt ha hW _
  have hwc := widening_clmul_bounds (a.getD (L - i - 1) 0) (b.getD (L - j - 1) 0) haw
  set wc := widening_clmul (a.getD (L - i - 1) 0) (b.getD (L - j - 1) 0) with hwcdef
  have hset : ∀ (l : List Nat) (idx : Nat) (x : Nat), (∀ w ∈ l, w < 2 ^ wordBits) →
      x < 2 ^ wordBits → ∀ w ∈ l.set idx (l.getD idx 0 ^^^ x), w < 2 ^ wordBits := by
    intro l idx x hl hx w hw
    rcases List.mem_or_eq_of_mem_set hw with hmem | heq
    · exact hl w hmem
    · rw [heq]
      exact Nat.xor_lt_two_pow (getD_lt hl hW idx) hx
  rw [ExtField2.mulStep, ← hwcdef]
  by_cases hij : i + j < L <;> by_cases hij1 : i + j + 1 < L <;>
    simp only [if_pos, if_neg, hij, hij1, if_true, if_false] <;>
    exact ⟨fun w hw => by first
        | exact h1 w hw
        | exact hset _ _ _ h1 hwc.2 w hw
        | exact hset _ _ _ (hset _ _ _ h1 hwc.2) hwc.1 w hw
        | exact hset _ _ _ h1 hwc.1 w hw,
      fun w hw => by first
        | exact h2 w hw
        | exact hset _ _ _ h2 hwc.2 w hw
        | exact hset _ _ _ (hset _ _ _ h2 hwc.2) hwc.1 w hw
        | exact hset _ _ _ h2 hwc.1 w hw⟩

theorem widening_gf_mul_fold (L : Nat) (a b : List Nat) :
    (ExtField2.widening_gf_mul L a b).1.length = L ∧
    (ExtField2.widening_gf_mul L a b).2.length = L ∧
    hlVal L (ExtField2.widening_gf_mul L a b)
      = (List.range L).foldl
          (fun acc i => (List.range L).foldl (fun acc j => acc ^^^ prodContrib L a b i j) acc)
          0 := by
  refine foldl_rel
    (fun hl acc => hl.1.length = L ∧ hl.2.length = L ∧ hlVal L hl = acc)
    (fun hl i => (List.range L).foldl (fun hl j => ExtField2.mulStep L a b i j hl) hl)
    (fun acc i => (List.range L).foldl (fun acc j => acc ^^^ prodContrib L a b i j) acc)
    (List.range L) (ExtField2.zero L, ExtField2.zero L) 0
    ⟨by simp [ExtField2.zero], by simp [ExtField2.zero],
      by simp [hlVal, ExtField2.zero, beVal_replicate_zero]⟩
    ?_
  intro x y i hi hxy
  refine foldl_rel
    (fun hl acc => hl.1.length = L ∧ hl.2.length = L ∧ hlVal L hl = acc)
    (fun hl j => ExtField2.mulStep L a b i j hl)
    (fun acc j => acc ^^^ prodContrib L a b i j)
    (List.range L) x y hxy ?_
  intro x' y' j hj hxy'
  obtain ⟨g1, g2⟩ := x'
  have hspec := mulStep_spec L a b i j (List.mem_range.mp hi) (List.mem_range.mp hj)
    g1 g2 hxy'.1 hxy'.2.1
  exact ⟨hspec.1, hspec.2.1, by rw [hspec.2.2, hxy'.2.2]⟩

theorem widening_gf_mul_bounds (L : Nat) (a b : List Nat)
    (ha : ∀ w ∈ a, w < 2 ^ wordBits) :
    (∀ w ∈ (ExtField2.widening_gf_mul L a b).1, w < 2 ^ wordBits) ∧
    (∀ w ∈ (ExtField2.widening_gf_mul L a b).2, w < 2 ^ wordBits) := by
  refine foldl_inv
    (fun hl => (∀ w ∈ hl.1, w < 2 ^ wordBits) ∧ (∀ w ∈ hl.2, w < 2 ^ wordBits))
    (fun hl i => (List.range L).foldl (fun hl j => ExtField2.mulStep L a b i j hl) hl)
    (List.range L) (ExtField2.zero L, ExtField2.zero L)
    ⟨?_, ?_⟩ ?_
  · intro w hw
    rw [List.eq_of_mem_replicate (show w ∈ List.replicate L 0 from hw)]
    exact Nat.pos_pow_of_pos _ two_pos
  · intro w hw
    rw [List.eq_of_mem_replicate (show w ∈ List.replicate L 0 from hw)]
    exact Nat.pos_pow_of_pos _ two_pos
  · intro x i _ hx
    refine foldl_inv
      (fun hl => (∀ w ∈ hl.1, w < 2 ^ wordBits) ∧ (∀ w ∈ hl.2, w < 2 ^ wordBits))
      (fun hl j => ExtField2.mulStep L a b i j hl) (List.range L) x hx ?_
    intro x' j _ hx'
    obtain ⟨g1, g2⟩ := x'
    exact mulStep_bounds L a b i j ha g1 g2 hx'.1 hx'.2

theorem nested_contrib_eq (L : Nat) (a b : List Nat) (hla : a.length = L)
    (hlb : b.length = L) (ha : ∀ w ∈ a, w < 2 ^ wordBits) (hb : ∀ w ∈ b, w < 2 ^ wordBits) :
    (List.range L).foldl
      (fun acc i => (List.range L).foldl (fun acc j => acc ^^^ prodContrib L a b i j) acc) 0
    = clmulNat (beVal a) (beVal b) := by
  have hW : (0 : Nat) < 2 ^ wordBits := Nat.pos_pow_of_pos _ two_pos
  have houter : (List.range L).foldl
      (fun acc i => (List.range L).foldl (fun acc j => acc ^^^ prodContrib L a b i j) acc) 0
      = xorFold (fun i => xorFold (fun j => prodContrib L a b i j) (List.range L))
          (List.range L) := by
    rw [xorFold]
    apply foldl_congr_mem
    intro x c _
    rw [foldl_xor_acc]
  rw [houter, beVal_eq_xorFold a L hla, beVal_eq_xorFold b L hlb, clmul_xorFold_left]
  apply xorFold_congr
  intro i _
  rw [clmulNat_shiftLeft_left, clmul_xorFold_right, xorFold_shiftLeft]
  apply xorFold_congr
  intro j _
  rw [clmulNat_shiftLeft_right, shiftLeft_shiftLeft, prodContrib,
    widening_clmul_pairVal _ _ (getD_lt ha hW _),
    clmulAux_eq_clmulNat _ _ _ (getD_lt hb hW _)]
  have hsh : wordBits * j + wordBits * i = wordBits * (i + j) := by ring
  rw [hsh]

/-- Combined correctness of the schoolbook widening multiplication. -/
theorem widening_gf_mul_val (L : Nat) (a b : List Nat) (hla : a.length = L)
    (hlb : b.length = L) (ha : ∀ w ∈ a, w < 2 ^ wordBits)
    (hb : ∀ w ∈ b, w < 2 ^ wordBits) :
    beVal (ExtField2.widening_gf_mul L a b).1 * 2 ^ (wordBits * L)
      + beVal (ExtField2.widening_gf_mul L a b).2
      = clmulNat (beVal a) (beVal b) := by
  obtain ⟨hlen1, hlen2, hval⟩ := widening_gf_mul_fold L a b
  have hbnd := widening_gf_mul_bounds L a b ha
  have hlow : beVal (ExtField2.widening_gf_mul L a b).2 < 2 ^ (wordBits * L) := by
    have := beVal_lt _ hbnd.2
    rwa [hlen2] at this
  rw [← nested_contrib_eq L a b hla hlb ha hb, ← hval, hlVal,
    shiftLeft_xor_eq_add _ hlow, Nat.shiftLeft_eq]

/-- C1: for every pair of `ExtField2<L>` values `a`, `b`, `widening_gf_mul`
returns a pair (high, low) of `L`-limb values that together represent the
exact GF(2) polynomial product of `a` and `b`, of degree < 2·L·WordBits. -/
theorem claim_C1 (L : Nat) (a b : List Nat) (hla : a.length = L) (hlb : b.length = L)
    (ha : ∀ w ∈ a, w < 2 ^ wordBits) (hb : ∀ w ∈ b, w < 2 ^ wordBits) :
    (ExtField2.widening_gf_mul L a b).1.length = L ∧
    (ExtField2.widening_gf_mul L a b).2.length = L ∧
    beVal (ExtField2.widening_gf_mul L a b).1 * 2 ^ (wordBits * L)
      + beVal (ExtField2.widening_gf_mul L a b).2
      = clmulNat (beVal a) (beVal b) ∧
    clmulNat (beVal a) (beVal b) < 2 ^ (2 * (wordBits * L)) := by
  obtain ⟨hlen1, hlen2, _⟩ := widening_gf_mul_fold L a b
  have hbnd := widening_gf_mul_bounds L a b ha
  have hval := widening_gf_mul_val L a b hla hlb ha hb
  refine ⟨hlen1, hlen2, hval, ?_⟩
  have hhigh : beVal (ExtField2.widening_gf_mul L a b).1 < 2 ^ (wordBits * L) := by
    have := beVal_lt _ hbnd.1
    rwa [hlen1] at this
  have hlow : beVal (ExtField2.widening_gf_mul L a b).2 < 2 ^ (wordBits * L) := by
    have := beVal_lt _ hbnd.2
    rwa [hlen2] at this
  rw [← hval]
  calc beVal (ExtField2.widening_gf_mul L a b).1 * 2 ^ (wordBits * L)
        + beVal (ExtField2.widening_gf_mul L a b).2
      < beVal (ExtField2.widening_gf_mul L a b).1 * 2 ^ (wordBits * L)
        + 2 ^ (wordBits * L) := by omega
    _ = (beVal (ExtField2.widening_gf_mul L a b).1 + 1) * 2 ^ (wordBits * L) := by ring
    _ ≤ 2 ^ (wordBits * L) * 2 ^ (wordBits * L) := by
        exact Nat.mul_le_mul_right _ (by omega)
    _ = 2 ^ (2 * (wordBits * L)) := by rw [← pow_add, two_mul]

/-- Witness for C1 at L = 2, a = [0, 3], b = [0, 5]. -/
theorem claim_C1_witness :
    (ExtField2.widening_gf_mul 2 [0, 3] [0, 5]).1.length = 2 ∧
    (ExtField2.widening_gf_mul 2 [0, 3] [0, 5]).2.length = 2 ∧
    beVal (ExtField2.widening_gf_mul 2 [0, 3] [0, 5]).1 * 2 ^ (wordBits * 2)
      + beVal (ExtField2.widening_gf_mul 2 [0, 3] [0, 5]).2
      = clmulNat (beVal [0, 3]) (beVal [0, 5]) ∧
    clmulNat (beVal [0, 3]) (beVal [0, 5]) < 2 ^ (2 * (wordBits * 2)) :=
  claim_C1 2 [0, 3] [0, 5] rfl rfl (by decide) (by decide)

/-- C9: both multiplication primitives are commutative: `widening_clmul a b =
widening_clmul b a` for all words, and `a.widening_gf_mul(&b) =
b.widening_gf_mul(&a)` for all `ExtField2<L>` values. -/
theorem claim_C9 :
    (∀ a b : Nat, a < 2 ^ wordBits → b < 2 ^ wordBits →
      widening_clmul a b = widening_clmul b a) ∧
    (∀ (L : Nat) (a b : List Nat), a.length = L → b.length = L →
      (∀ w ∈ a, w < 2 ^ wordBits) → (∀ w ∈ b, w < 2 ^ wordBits) →
      ExtField2.widening_gf_mul L a b = ExtField2.widening_gf_mul L b a) := by
  constructor
  · intro a b ha hb
    apply pairVal_pair_eq _ (widening_clmul_bounds a b ha).2 (widening_clmul_bounds b a hb).2
    rw [widening_clmul_pairVal a b ha, widening_clmul_pairVal b a hb,
      clmulAux_eq_clmulNat _ _ _ hb, clmulAux_eq_clmulNat _ _ _ ha, clmulNat_comm]
  · intro L a b hla hlb ha hb
    obtain ⟨habl1, habl2, _⟩ := widening_gf_mul_fold L a b
    obtain ⟨hbal1, hbal2, _⟩ := widening_gf_mul_fold L b a
    have hcomm : clmulNat (beVal a) (beVal b) = clmulNat (beVal b) (beVal a) :=
      clmulNat_comm _ _
    have hval : beVal (ExtField2.widening_gf_mul L a b).1 * 2 ^ (wordBits * L)
        + beVal (ExtField2.widening_gf_mul L a b).2
        = beVal (ExtField2.widening_gf_mul L b a).1 * 2 ^ (wordBits * L)
          + beVal (ExtField2.widening_gf_mul L b a).2 := by
      rw [widening_gf_mul_val L a b hla hlb ha hb,
        widening_gf_mul_val L b a hlb hla hb ha, hcomm]
    have hbab := widening_gf_mul_bounds L a b ha
    have hbba := widening_gf_mul_bounds L b a hb
    have hlowab : beVal (ExtField2.widening_gf_mul L a b).2 < 2 ^ (wordBits * L) := by
      have := beVal_lt _ hbab.2
      rwa [habl2] at this
    have hlowba : beVal (ExtField2.widening_gf_mul L b a).2 < 2 ^ (wordBits * L) := by
      have := beVal_lt _ hbba.2
      rwa [hbal2] at this
    obtain ⟨hhi, hlo⟩ := two_pow_split_inj hlowab hlowba hval
    have e1 : (ExtField2.widening_gf_mul L a b).1 = (ExtField2.widening_gf_mul L b a).1 :=
      beVal_inj _ _ (by rw [habl1, hbal1]) hbab.1 hbba.1 hhi
    have e2 : (ExtField2.widening_gf_mul L a b).2 = (ExtField2.widening_gf_mul L b a).2 :=
      beVal_inj _ _ (by rw [habl2, hbal2]) hbab.2 hbba.2 hlo
    exact Prod.ext e1 e2

/-- Witness for C9 at a = 3, b = 5 (words) and L = 1, a = [3], b = [5]. -/
theorem claim_C9_witness :
    widening_clmul 3 5 = widening_clmul 5 3 ∧
    ExtField2.widening_gf_mul 1 [3] [5] = ExtField2.widening_gf_mul 1 [5] [3] :=
  ⟨claim_C9.1 3 5 (by decide) (by decide),
    claim_C9.2 1 [3] [5] rfl rfl (by decide) (by decide)⟩

theorem gf_add_length (L : Nat) (a b : List Nat) : (ExtField2.gf_add L a b).length = L := by
  simp [ExtField2.gf_add]

theorem gf_add_getD (L : Nat) (a b : List Nat) (i : Nat) (hi : i < L) :
    (ExtField2.gf_add L a b).getD i 0 = a.getD i 0 ^^^ b.getD i 0 := by
  rw [List.getD_eq_getElem _ 0 (by simp [ExtField2.gf_add, hi])]
  simp [ExtField2.gf_add]

theorem zero_getD (L : Nat) (i : Nat) : (ExtField2.zero L).getD i 0 = 0 := by
  by_cases hi : i < L
  · rw [List.getD_eq_getElem _ 0 (by simp [ExtField2.zero, hi])]
    simp [ExtField2.zero]
  · rw [List.getD_eq_default _ 0 (by simp [ExtField2.zero]; omega)]

theorem list_ext_getD {a b : List Nat} {L : Nat} (hla : a.length = L) (hlb : b.length = L)
    (h : ∀ i, i < L → a.getD i 0 = b.getD i 0) : a = b := by
  apply List.ext_getElem (by rw [hla, hlb])
  intro i h1 h2
  have := h i (by omega)
  rwa [List.getD_eq_getElem a 0 h1, List.getD_eq_getElem b 0 h2] at this

/-- Modelled from the spec: the field-level addition of the `galois_field!`
types (`add` in src/gf2.rs delegates to the missing `F2x::add`; spec §3 and
§4.5 specify componentwise XOR of the limb arrays, which is XOR of the
polynomial bit representations). -/
def fieldAdd (a b : Nat) : Nat := a ^^^ b

/-- `sub` in src/gf2.rs is defined as `self.add(rhs)`. -/
def fieldSub (a b : Nat) : Nat := fieldAdd a b

/-- C8: addition is a commutative group operation with every element
self-inverse, both on the `ExtField2` representation (`gf_add`/`gf_sub`,
src/lib.rs) and at the field level, and subtraction is the identical
operation to addition. -/
theorem claim_C8 :
    (∀ (L : Nat) (a b : List Nat), ExtField2.gf_add L a b = ExtField2.gf_add L b a) ∧
    (∀ (L : Nat) (a : List Nat), ExtField2.gf_add L a a = ExtField2.zero L) ∧
    (∀ (L : Nat) (a b c : List Nat),
      ExtField2.gf_add L (ExtField2.gf_add L a b) c
        = ExtField2.gf_add L a (ExtField2.gf_add L b c)) ∧
    (∀ (L : Nat) (a : List Nat), a.length = L → ExtField2.gf_add L a (ExtField2.zero L) = a) ∧
    (∀ (L : Nat) (a b : List Nat), ExtField2.gf_sub L a b = ExtField2.gf_add L a b) ∧
    (∀ x y : Nat, fieldAdd x y = fieldAdd y x) ∧
    (∀ x : Nat, fieldAdd x x = 0) ∧
    (∀ x y z : Nat, fieldAdd (fieldAdd x y) z = fieldAdd x (fieldAdd y z)) ∧
    (∀ x : Nat, fieldAdd x 0 = x) ∧
    (∀ x y : Nat, fieldSub x y = fieldAdd x y) := by
  refine ⟨?_, ?_, ?_, ?_, fun _ _ _ => rfl, fun x y => Nat.xor_comm x y,
    fun x => Nat.xor_self x, fun x y z => Nat.xor_assoc x y z, fun x => Nat.xor_zero x,
    fun _ _ => rfl⟩
  · intro L a b
    apply list_ext_getD (gf_add_length L a b) (gf_add_length L b a)
    intro i hi
    rw [gf_add_getD L a b i hi, gf_add_getD L b a i hi, Nat.xor_comm]
  · intro L a
    apply list_ext_getD (gf_add_length L a a) (by simp [ExtField2.zero])
    intro i hi
    rw [gf_add_getD L a a i hi, zero_getD, Nat.xor_self]
  · intro L a b c
    apply list_ext_getD (gf_add_length _ _ _) (gf_add_length _ _ _)
    intro i hi
    rw [gf_add_getD _ _ _ i hi, gf_add_getD _ _ _ i hi, gf_add_getD _ _ _ i hi,
      gf_add_getD _ _ _ i hi, Nat.xor_assoc]
  · intro L a hla
    apply list_ext_getD (gf_add_length _ _ _) hla
    intro i hi
    rw [gf_add_getD _ _ _ i hi, zero_getD, Nat.xor_zero]

/-- Witness for C8 (the one conditional part, the additive identity) at
L = 2, a = [1, 2]. -/
theorem claim_C8_witness :
    ExtField2.gf_add 2 [1, 2] (ExtField2.zero 2) = [1, 2] :=
  claim_C8.2.2.2.1 2 [1, 2] rfl

/-- C10: `ExtField2::one` is well-defined only for `L ≥ 1` (the write to limb
`L - 1` is out of bounds for `L = 0`, which the embedding reports as `none`),
whereas `zero` is total for every `L`; for `L ≥ 1` the one-value is all zeros
except limb `L - 1`, which is `1`. -/
theorem claim_C10 :
    ExtField2.one? 0 = none ∧
    (∀ L : Nat, 0 < L → ExtField2.one? L = some (ExtField2.one L)) ∧
    (∀ L : Nat, (ExtField2.zero L).length = L) ∧
    (∀ L : Nat, 0 < L → (ExtField2.one L).length = L ∧
      ∀ idx, idx < L → (ExtField2.one L).getD idx 0 = if idx = L - 1 then 1 else 0) := by
  refine ⟨rfl, ?_, fun L => by simp [ExtField2.zero], ?_⟩
  · intro L hL
    rw [ExtField2.one?, if_pos (by omega), ExtField2.one]
  · intro L hL
    have hlen : (ExtField2.one L).length = L := by simp [ExtField2.one]
    refine ⟨hlen, ?_⟩
    intro idx hidx
    rw [List.getD_eq_getElem _ 0 (by rw [hlen]; exact hidx)]
    by_cases hcase : idx = L - 1
    · rw [if_pos hcase]
      simp only [ExtField2.one, List.getElem_set]
      rw [if_pos hcase.symm]
    · rw [if_neg hcase]
      simp only [ExtField2.one, List.getElem_set]
      rw [if_neg (fun h => hcase h.symm)]
      simp

/-- Witness for C10 at L = 2, idx = 1. -/
theorem claim_C10_witness :
    ExtField2.one? 2 = some (ExtField2.one 2) ∧
    (ExtField2.one 2).getD 1 0 = if 1 = 2 - 1 then 1 else 0 :=
  ⟨claim_C10.2.1 2 (by decide), (claim_C10.2.2.2 2 (by decide)).2 1 (by decide)⟩

theorem xor_shiftRight (x y k : Nat) : (x ^^^ y) >>> k = (x >>> k) ^^^ (y >>> k) := by
  apply Nat.eq_of_testBit_eq
  intro i
  simp [Nat.testBit_shiftRight, Nat.testBit_xor]

theorem shiftRight_eq_zero_iff {n s : Nat} : n >>> s = 0 ↔ n < 2 ^ s := by
  rw [Nat.shiftRight_eq_div_pow]
  constructor
  · intro h
    by_contra hlt
    have : 1 ≤ n / 2 ^ s :=
      (Nat.le_div_iff_mul_le (Nat.pos_pow_of_pos _ two_pos)).mpr (by omega)
    omega
  · exact Nat.div_eq_of_lt

theorem testBit_of_bounds {n k : Nat} (h1 : 2 ^ k ≤ n) (h2 : n < 2 ^ (k + 1)) :
    n.testBit k = true := by
  rw [Nat.testBit_to_div_mod]
  have hdiv : n / 2 ^ k = 1 := by
    have ha : 1 ≤ n / 2 ^ k := (Nat.le_div_iff_mul_le (Nat.pos_pow_of_pos _ two_pos)).mpr
      (by omega)
    have hb : n / 2 ^ k < 2 := by
      rw [Nat.div_lt_iff_lt_mul (Nat.pos_pow_of_pos _ two_pos)]
      have hpow : 2 ^ (k + 1) = 2 ^ k * 2 := by rw [pow_succ]
      omega
    omega
  simp [hdiv]

/-- Kill the top bit: XOR of two values that agree in having bit `k` set and
lie below `2 ^ (k+1)` lands below `2 ^ k`. -/
theorem xor_top_cancel {x y k : Nat} (hx : x < 2 ^ (k + 1)) (hy : y < 2 ^ (k + 1))
    (hxb : x.testBit k = true) (hyb : y.testBit k = true) : x ^^^ y < 2 ^ k := by
  apply Nat.lt_pow_two_of_testBit
  intro i hi
  rcases Nat.eq_or_lt_of_le hi with rfl | hgt
  · simp [Nat.testBit_xor, hxb, hyb]
  · have hxi : x.testBit i = false :=
      Nat.testBit_lt_two_pow (lt_of_lt_of_le hx (Nat.pow_le_pow_right two_pos hgt))
    have hyi : y.testBit i = false :=
      Nat.testBit_lt_two_pow (lt_of_lt_of_le hy (Nat.pow_le_pow_right two_pos hgt))
    simp [Nat.testBit_xor, hxi, hyi]

theorem lt_two_pow_of_lt_of_testBit_false {r k : Nat} (h : r < 2 ^ (k + 1))
    (hb : r.testBit k = false) : r < 2 ^ k := by
  apply Nat.lt_pow_two_of_testBit
  intro i hi
  rcases Nat.eq_or_lt_of_le hi with rfl | hgt
  · exact hb
  · exact Nat.testBit_lt_two_pow (lt_of_lt_of_le h (Nat.pow_le_pow_right two_pos hgt))

/-- Modelled from the spec (§4.3, the `div_rem` of the missing `f2x.rs`
module): polynomial long division of a remainder `r` by a divisor `b` of
degree `db`, scanning the `s` candidate shift amounts from high to low.  A
scan step whose bit is clear is a no-op; when the bit at `db + s` is set the
divisor shifted by `s` is XORed into the remainder and bit `s` is set in the
quotient — exactly the reduction step the spec describes by "locate the
highest set bit (degree) of the current remainder ... XOR the divisor
(shifted left by that amount) into the remainder". -/
def divModAux (b db : Nat) : Nat → Nat → Nat → Nat × Nat
  | 0, q, r => (q, r)
  | s + 1, q, r =>
    if r.testBit (db + s) then divModAux b db s (q ^^^ (1 <<< s)) (r ^^^ (b <<< s))
    else divModAux b db s q r

theorem divModAux_spec (b db : Nat) (hbtop : b.testBit db = true) (hbub : b < 2 ^ (db + 1)) :
    ∀ (s q r : Nat), r < 2 ^ (db + s) →
      clmulNat (divModAux b db s q r).1 b ^^^ (divModAux b db s q r).2
          = clmulNat q b ^^^ r
        ∧ (divModAux b db s q r).2 < 2 ^ db
        ∧ (divModAux b db s q r).1 >>> s = q >>> s := by
  intro s
  induction s with
  | zero => exact fun q r hr => ⟨rfl, hr, rfl⟩
  | succ s ih =>
    intro q r hr
    by_cases hbit : r.testBit (db + s)
    · rw [divModAux, if_pos hbit]
      have hshift_top : (b <<< s).testBit (db + s) = true := by
        rw [Nat.testBit_shiftLeft]
        have heq : db + s - s = db := by omega
        simp [heq, hbtop, Nat.le_add_left]
      have hshift_lt : b <<< s < 2 ^ (db + s + 1) := by
        rw [Nat.shiftLeft_eq]
        calc b * 2 ^ s < 2 ^ (db + 1) * 2 ^ s := by
              exact Nat.mul_lt_mul_of_lt_of_le hbub le_rfl (Nat.pos_pow_of_pos _ two_pos)
          _ = 2 ^ (db + s + 1) := by rw [← pow_add]; congr 1; omega
      have hr' : r ^^^ b <<< s < 2 ^ (db + s) := by
        apply xor_top_cancel (k := db + s) _ hshift_lt hbit hshift_top
        calc r < 2 ^ (db + (s + 1)) := hr
          _ = 2 ^ (db + s + 1) := by rfl
      obtain ⟨h1, h2, h3⟩ := ih (q ^^^ 1 <<< s) (r ^^^ b <<< s) hr'
      refine ⟨?_, h2, ?_⟩
      · rw [h1, clmulNat_xor_left, clmulNat_two_pow_left, Nat.xor_assoc,
          Nat.xor_comm r (b <<< s), ← Nat.xor_assoc (b <<< s) (b <<< s) r,
          Nat.xor_self, Nat.zero_xor]
      · have hzero : (1 <<< s) >>> (s + 1) = 0 := by
          rw [shiftRight_eq_zero_iff, Nat.shiftLeft_eq, one_mul]
          exact Nat.pow_lt_pow_right one_lt_two (by omega)
        rw [Nat.shiftRight_add ((divModAux b db s (q ^^^ 1 <<< s) (r ^^^ b <<< s)).1) s 1,
          h3, ← Nat.shiftRight_add, xor_shiftRight, hzero, Nat.xor_zero]
    · rw [divModAux, if_neg hbit]
      have hr' : r < 2 ^ (db + s) := by
        apply lt_two_pow_of_lt_of_testBit_false _ (by simpa using hbit)
        calc r < 2 ^ (db + (s + 1)) := hr
          _ = 2 ^ (db + s + 1) := by rfl
      obtain ⟨h1, h2, h3⟩ := ih q r hr'
      refine ⟨h1, h2, ?_⟩
      rw [Nat.shiftRight_add ((divModAux b db s q r).1) s 1, h3, ← Nat.shiftRight_add]

theorem divModAux_quotient_lt (b db : Nat) (hbtop : b.testBit db = true)
    (hbub : b < 2 ^ (db + 1)) (s r : Nat) (hr : r < 2 ^ (db + s)) :
    (divModAux b db s 0 r).1 < 2 ^ s := by
  have h := (divModAux_spec b db hbtop hbub s 0 r hr).2.2
  rw [← shiftRight_eq_zero_iff, h]
  simp

/-- Fueled bit length: the number of binary digits of `n`, computed by
structural recursion (the "locate the highest set bit" primitive of the
spec, §4.3/§4.4). -/
def bitLenAux : Nat → Nat → Nat
  | 0, _ => 0
  | fuel + 1, n => if n = 0 then 0 else bitLenAux fuel (n / 2) + 1

theorem bitLenAux_le_iff : ∀ (fuel n k : Nat), n < 2 ^ fuel →
    (bitLenAux fuel n ≤ k ↔ n < 2 ^ k) := by
  intro fuel
  induction fuel with
  | zero =>
    intro n k hn
    interval_cases n
    simp [bitLenAux, Nat.pos_pow_of_pos, Nat.zero_le]
  | succ fuel ih =>
    intro n k hn
    rcases Nat.eq_zero_or_pos n with rfl | hpos
    · simp [bitLenAux, Nat.pos_pow_of_pos]
    rw [bitLenAux, if_neg (by omega)]
    cases k with
    | zero =>
      simp only [Nat.succ_ne_zero, pow_zero]
      constructor
      · omega
      · omega
    | succ k =>
      have hdiv : n / 2 < 2 ^ fuel := by
        rw [Nat.div_lt_iff_lt_mul two_pos]
        calc n < 2 ^ (fuel + 1) := hn
          _ = 2 ^ fuel * 2 := by rw [pow_succ]
      rw [Nat.add_le_add_iff_right, ih (n / 2) k hdiv,
        Nat.div_lt_iff_lt_mul two_pos, ← pow_succ]

theorem bitLenAux_lt (fuel n : Nat) (hn : n < 2 ^ fuel) : n < 2 ^ (bitLenAux fuel n) :=
  (bitLenAux_le_iff fuel n _ hn).mp le_rfl

theorem bitLenAux_pos (fuel n : Nat) (hn : n < 2 ^ fuel) (hn0 : n ≠ 0) :
    1 ≤ bitLenAux fuel n := by
  by_contra h
  have : bitLenAux fuel n ≤ 0 := by omega
  have := (bitLenAux_le_iff fuel n 0 hn).mp this
  simp at this
  omega

theorem bitLenAux_ge (fuel n : Nat) (hn : n < 2 ^ fuel) (hn0 : n ≠ 0) :
    2 ^ (bitLenAux fuel n - 1) ≤ n := by
  have hpos := bitLenAux_pos fuel n hn hn0
  by_contra h
  have hlt : n < 2 ^ (bitLenAux fuel n - 1) := by omega
  have := (bitLenAux_le_iff fuel n (bitLenAux fuel n - 1) hn).mpr hlt
  omega

theorem bitLenAux_topBit (fuel n : Nat) (hn : n < 2 ^ fuel) (hn0 : n ≠ 0) :
    n.testBit (bitLenAux fuel n - 1) = true := by
  apply testBit_of_bounds (bitLenAux_ge fuel n hn hn0)
  have := bitLenAux_lt fuel n hn
  have hpos := bitLenAux_pos fuel n hn hn0
  have : bitLenAux fuel n - 1 + 1 = bitLenAux fuel n := by omega
  rw [this]
  exact bitLenAux_lt fuel n hn

/-- Modelled from the spec (§4.3): division with remainder of a dividend of
degree < 2m by the field's degree-m modulus, performing exactly the `m`
candidate reduction steps the spec's loop bound allows (the loop "must
terminate in at most m iterations"). -/
def div_rem (m f d : Nat) : Nat × Nat := divModAux f m m 0 d

/-- C2: for every dividend `d` of degree < 2m and the field's degree-m
modulus `f`, `div_rem` returns `(q, r)` with `clmulNat q f ^^^ r = d` (the
widening product of quotient and modulus XOR-added with the remainder gives
back the dividend) and `degree r < m`; the reduction loop needs at most `m`
iterations, which is the scan bound built into `div_rem`. -/
theorem claim_C2 (m f d : Nat) (hftop : f.testBit m = true) (hfub : f < 2 ^ (m + 1))
    (hd : d < 2 ^ (2 * m)) :
    clmulNat (div_rem m f d).1 f ^^^ (div_rem m f d).2 = d ∧ (div_rem m f d).2 < 2 ^ m := by
  have hd' : d < 2 ^ (m + m) := by
    calc d < 2 ^ (2 * m) := hd
      _ = 2 ^ (m + m) := by rw [two_mul]
  obtain ⟨h1, h2, _⟩ := divModAux_spec f m hftop hfub m 0 d hd'
  refine ⟨?_, h2⟩
  rw [div_rem] at *
  rw [h1, clmulNat_zero_left, Nat.zero_xor]

/-- Witness for C2 at m = 2, f = 0b101, d = 0b1011. -/
theorem claim_C2_witness :
    clmulNat (div_rem 2 5 11).1 5 ^^^ (div_rem 2 5 11).2 = 11 ∧ (div_rem 2 5 11).2 < 2 ^ 2 :=
  claim_C2 2 5 11 (by decide) (by decide) (by decide)

theorem polyGF2_add_self (p : Polynomial (ZMod 2)) : p + p = 0 := by
  have h2 : (1 + 1 : Polynomial (ZMod 2)) = 0 := by
    rw [← Polynomial.C_1, ← Polynomial.C_add]
    have : (1 + 1 : ZMod 2) = 0 := by decide
    rw [this, Polynomial.C_0]
  calc p + p = (1 + 1) * p := by ring
    _ = 0 := by rw [h2, zero_mul]

/-- Degrees add under carryless multiplication. -/
theorem clmulNat_lt_sharp {x y i j : Nat} (hx : x < 2 ^ (i + 1)) (hy : y < 2 ^ (j + 1)) :
    clmulNat x y < 2 ^ (i + j + 1) := by
  apply Nat.lt_pow_two_of_testBit
  intro k hk
  have hconv : convParity x y k = 0 := by
    rw [convParity]
    apply Finset.sum_eq_zero
    intro u hu
    have huk : u ≤ k := by
      have := Finset.mem_range.mp hu
      omega
    have hne : ¬ (x.testBit u = true ∧ y.testBit (k - u) = true) := by
      rintro ⟨hxu, hyv⟩
      by_cases hui : u ≤ i
      · have hj1 : j + 1 ≤ k - u := by omega
        have : y.testBit (k - u) = false :=
          Nat.testBit_lt_two_pow (lt_of_lt_of_le hy (Nat.pow_le_pow_right two_pos hj1))
        rw [this] at hyv
        exact Bool.noConfusion hyv
      · have : x.testBit u = false :=
          Nat.testBit_lt_two_pow (lt_of_lt_of_le hx (Nat.pow_le_pow_right two_pos (by omega)))
        rw [this] at hxu
        exact Bool.noConfusion hxu
    exact if_neg hne
  cases hb : (clmulNat x y).testBit k
  · rfl
  · have h1 := (testBit_clmulNat_iff x y k).mp hb
    rw [hconv] at h1
    exact absurd h1 (by decide)

/-- Modelled from the spec (§4.4, the extended Euclidean loop of the missing
`F2x::modinv`): maintain the pair (r0, r1) of remainders with the running
Bézout coefficients (s0, s1) of `self`; each round divides r0 by r1 via §4.3's
division and updates the coefficient accordingly; the loop stops when the
remainder reaches zero.  `W` bounds the bit width of every value handled and
`fuel` the number of rounds; both are instantiated by the caller. Returns the
final (gcd, coefficient) pair. -/
def eeaAux (W : Nat) : Nat → Nat → Nat → Nat → Nat → Nat × Nat
  | 0, r0, _, s0, _ => (r0, s0)
  | fuel + 1, r0, r1, s0, s1 =>
    if r1 = 0 then (r0, s0)
    else
      let d0 := bitLenAux W r0 - 1
      let d1 := bitLenAux W r1 - 1
      let qr := divModAux r1 d1 (d0 - d1 + 1) 0 r0
      eeaAux W fuel r1 qr.2 s1 (s0 ^^^ clmulAux W qr.1 s1)

/-- Modelled from the spec (§4.4, the missing `F2x::modinv` with the field
inversion of src/gf2.rs layered on top): return `none` for the zero element;
otherwise run the extended Euclidean algorithm on (modulus, self) starting
from the Bézout coefficients (0, 1) and reduce the final tracked coefficient
modulo the modulus to degree < m. -/
def modinv (W m f a : Nat) : Option Nat :=
  if a = 0 then none
  else some ((divModAux f m (m + 1) 0 (eeaAux W (m + 1) f a 0 1).2).2)

/-- Modelled from the spec (§4.5 `mul` of the `galois_field!` macro in
src/gf2.rs): multiply via the widening carryless product and keep the
remainder of the division by the field modulus. -/
def fieldMul (m f a b : Nat) : Nat := (divModAux f m m 0 (clmulAux m a b)).2

theorem eea_exit_case (W m A F r0 s0 : Nat) (h0 : r0 ≠ 0) (hr0W : r0 < 2 ^ W)
    (hs0 : s0 < 2 ^ (m + 2 - bitLenAux W r0))
    (hB0 : ∃ t, toPoly s0 * toPoly A + t * toPoly F = toPoly r0)
    (hD : ∀ p : Polynomial (ZMod 2),
      (p ∣ toPoly r0 ∧ p ∣ toPoly 0) ↔ (p ∣ toPoly A ∧ p ∣ toPoly F)) :
    r0 ≠ 0 ∧ (∃ t, toPoly s0 * toPoly A + t * toPoly F = toPoly r0) ∧
    (∀ p : Polynomial (ZMod 2), p ∣ toPoly r0 ↔ (p ∣ toPoly A ∧ p ∣ toPoly F)) ∧
    s0 < 2 ^ (m + 1) := by
  refine ⟨h0, hB0, ?_, ?_⟩
  · intro p
    rw [← hD p]
    simp
  · have := bitLenAux_pos W r0 hr0W h0
    calc s0 < 2 ^ (m + 2 - bitLenAux W r0) := hs0
      _ ≤ 2 ^ (m + 1) := Nat.pow_le_pow_right two_pos (by omega)

theorem eeaAux_spec (W m A F : Nat) (hWm : m + 1 ≤ W) :
    ∀ (fuel r0 r1 s0 s1 : Nat),
      r1 < 2 ^ fuel → r0 ≠ 0 → r0 < 2 ^ W → r1 < 2 ^ W →
      r1 < 2 ^ (bitLenAux W r0 - 1) →
      bitLenAux W r0 ≤ m + 1 →
      s0 < 2 ^ (m + 2 - bitLenAux W r0) →
      s1 < 2 ^ (m + 2 - bitLenAux W r0) →
      (∃ t, toPoly s0 * toPoly A + t * toPoly F = toPoly r0) →
      (∃ t, toPoly s1 * toPoly A + t * toPoly F = toPoly r1) →
      (∀ p : Polynomial (ZMod 2),
        (p ∣ toPoly r0 ∧ p ∣ toPoly r1) ↔ (p ∣ toPoly A ∧ p ∣ toPoly F)) →
      (eeaAux W fuel r0 r1 s0 s1).1 ≠ 0 ∧
      (∃ t, toPoly (eeaAux W fuel r0 r1 s0 s1).2 * toPoly A + t * toPoly F
          = toPoly (eeaAux W fuel r0 r1 s0 s1).1) ∧
      (∀ p : Polynomial (ZMod 2),
        p ∣ toPoly (eeaAux W fuel r0 r1 s0 s1).1 ↔ (p ∣ toPoly A ∧ p ∣ toPoly F)) ∧
      (eeaAux W fuel r0 r1 s0 s1).2 < 2 ^ (m + 1) := by
  intro fuel
  induction fuel with
  | zero =>
    intro r0 r1 s0 s1 hfuel h0 hr0W hr1W hr10 hblen hs0 hs1 hB0 hB1 hD
    have hr1z : r1 = 0 := by
      have : r1 < 1 := by simpa using hfuel
      omega
    subst hr1z
    simp only [eeaAux]
    exact eea_exit_case W m A F r0 s0 h0 hr0W hs0 hB0 hD
  | succ fuel ih =>
    intro r0 r1 s0 s1 hfuel h0 hr0W hr1W hr10 hblen hs0 hs1 hB0 hB1 hD
    by_cases hr1z : r1 = 0
    · subst hr1z
      rw [show eeaAux W (fuel + 1) r0 0 s0 s1 = (r0, s0) from by rw [eeaAux]; simp]
      exact eea_exit_case W m A F r0 s0 h0 hr0W hs0 hB0 hD
    · have hstep : eeaAux W (fuel + 1) r0 r1 s0 s1
          = eeaAux W fuel r1
              (divModAux r1 (bitLenAux W r1 - 1)
                ((bitLenAux W r0 - 1) - (bitLenAux W r1 - 1) + 1) 0 r0).2
              s1
              (s0 ^^^ clmulAux W
                (divModAux r1 (bitLenAux W r1 - 1)
                  ((bitLenAux W r0 - 1) - (bitLenAux W r1 - 1) + 1) 0 r0).1 s1) := by
        rw [eeaAux, if_neg hr1z]
      rw [hstep]
      set d0 := bitLenAux W r0 - 1 with hd0def
      set d1 := bitLenAux W r1 - 1 with hd1def
      set qv := (divModAux r1 d1 (d0 - d1 + 1) 0 r0).1 with hqvdef
      set r2 := (divModAux r1 d1 (d0 - d1 + 1) 0 r0).2 with hr2def
      set s2 := s0 ^^^ clmulAux W qv s1 with hs2def
      have hb0pos := bitLenAux_pos W r0 hr0W h0
      have hb1pos := bitLenAux_pos W r1 hr1W hr1z
      have hb1top : r1.testBit d1 = true := bitLenAux_topBit W r1 hr1W hr1z
      have hblen_r1 : bitLenAux W r1 = d1 + 1 := by omega
      have hblen_r0 : bitLenAux W r0 = d0 + 1 := by omega
      have hr1ub : r1 < 2 ^ (d1 + 1) := by
        have := bitLenAux_lt W r1 hr1W
        rwa [hblen_r1] at this
      have hble1 : bitLenAux W r1 ≤ d0 := (bitLenAux_le_iff W r1 d0 hr1W).mpr hr10
      have hr0ub : r0 < 2 ^ (d0 + 1) := by
        have := bitLenAux_lt W r0 hr0W
        rwa [hblen_r0] at this
      have hprecond : r0 < 2 ^ (d1 + (d0 - d1 + 1)) := by
        rw [show d1 + (d0 - d1 + 1) = d0 + 1 from by omega]
        exact hr0ub
      obtain ⟨hdiv, hr2lt, _⟩ := divModAux_spec r1 d1 hb1top hr1ub (d0 - d1 + 1) 0 r0 hprecond
      have hqlt : qv < 2 ^ (d0 - d1 + 1) :=
        divModAux_quotient_lt r1 d1 hb1top hr1ub (d0 - d1 + 1) r0 hprecond
      rw [clmulNat_zero_left, Nat.zero_xor] at hdiv
      have hPr0 : toPoly r0 = toPoly qv * toPoly r1 + toPoly r2 := by
        rw [← hdiv, toPoly_xor, toPoly_clmulNat]
      obtain ⟨t0, hB0t⟩ := hB0
      obtain ⟨t1, hB1t⟩ := hB1
      have hd0m : d0 ≤ m := by omega
      have hs1W : s1 < 2 ^ W :=
        lt_of_lt_of_le hs1 (Nat.pow_le_pow_right two_pos (by omega))
      have hclmulW : clmulAux W qv s1 = clmulNat qv s1 := clmulAux_eq_clmulNat W qv s1 hs1W
      have hPs2 : toPoly s2 = toPoly s0 + toPoly qv * toPoly s1 := by
        rw [hs2def, toPoly_xor, hclmulW, toPoly_clmulNat]
      have hchar2 : toPoly qv * toPoly r1 + toPoly qv * toPoly r1 = 0 := polyGF2_add_self _
      have hB1new : ∃ t, toPoly s2 * toPoly A + t * toPoly F = toPoly r2 := by
        refine ⟨t0 + toPoly qv * t1, ?_⟩
        rw [hPs2]
        linear_combination hB0t + toPoly qv * hB1t + hPr0 + hchar2
      have hDnew : ∀ p : Polynomial (ZMod 2),
          (p ∣ toPoly r1 ∧ p ∣ toPoly r2) ↔ (p ∣ toPoly A ∧ p ∣ toPoly F) := by
        intro p
        rw [← hD p]
        constructor
        · rintro ⟨hp1, hp2⟩
          refine ⟨?_, hp1⟩
          rw [hPr0]
          exact dvd_add (hp1.mul_left _) hp2
        · rintro ⟨hp0, hp1⟩
          refine ⟨hp1, ?_⟩
          have hsub : toPoly r2 = toPoly r0 - toPoly qv * toPoly r1 := by
            rw [hPr0]
            ring
          rw [hsub]
          exact dvd_sub hp0 (hp1.mul_left _)
      have hr2fuel : r2 < 2 ^ fuel := by
        have hble_fuel : bitLenAux W r1 ≤ fuel + 1 :=
          (bitLenAux_le_iff W r1 (fuel + 1) hr1W).mpr hfuel
        calc r2 < 2 ^ d1 := hr2lt
          _ ≤ 2 ^ fuel := Nat.pow_le_pow_right two_pos (by omega)
      have hr2W : r2 < 2 ^ W :=
        lt_of_lt_of_le hr2lt (Nat.pow_le_pow_right two_pos (by omega))
      have hs1' : s1 < 2 ^ (m + 2 - bitLenAux W r1) :=
        lt_of_lt_of_le hs1 (Nat.pow_le_pow_right two_pos (by omega))
      have hs2' : s2 < 2 ^ (m + 2 - bitLenAux W r1) := by
        rw [hs2def, hclmulW]
        apply Nat.xor_lt_two_pow
        · exact lt_of_lt_of_le hs0 (Nat.pow_le_pow_right two_pos (by omega))
        · have hs1'' : s1 < 2 ^ ((m - d0) + 1) := by
            have hexp0 : m + 2 - bitLenAux W r0 = (m - d0) + 1 := by omega
            rw [← hexp0]
            exact hs1
          have hsharp := clmulNat_lt_sharp hqlt hs1''
          have hexp : (d0 - d1) + (m - d0) + 1 = m + 2 - bitLenAux W r1 := by omega
          rw [← hexp]
          exact hsharp
      have hr2d : r2 < 2 ^ (bitLenAux W r1 - 1) := by
        rw [hblen_r1]
        simpa using hr2lt
      have hblen1 : bitLenAux W r1 ≤ m + 1 := by omega
      exact ih r1 r2 s1 s2 hr2fuel hr1z hr1W hr2W hr2d hblen1 hs1' hs2' ⟨t1, hB1t⟩
        hB1new hDnew

theorem toPoly_ne_zero {n : Nat} (h : n ≠ 0) : toPoly n ≠ 0 := fun hc =>
  h (toPoly_inj (by rw [hc, toPoly_zero]))

theorem toPoly_natDegree_le {n k : Nat} (h : n < 2 ^ (k + 1)) : (toPoly n).natDegree ≤ k := by
  rw [Polynomial.natDegree_le_iff_coeff_eq_zero]
  intro N hN
  rw [toPoly_coeff]
  have hb : n.testBit N = false :=
    Nat.testBit_lt_two_pow (lt_of_lt_of_le h (Nat.pow_le_pow_right two_pos hN))
  simp [hb]

theorem toPoly_natDegree_modulus {m f : Nat} (hftop : f.testBit m = true)
    (hfub : f < 2 ^ (m + 1)) : (toPoly f).natDegree = m := by
  apply le_antisymm (toPoly_natDegree_le hfub)
  apply Polynomial.le_natDegree_of_ne_zero
  rw [toPoly_coeff]
  simp [hftop]

theorem toPoly_monic_modulus {m f : Nat} (hftop : f.testBit m = true)
    (hfub : f < 2 ^ (m + 1)) : (toPoly f).Monic := by
  unfold Polynomial.Monic
  rw [Polynomial.leadingCoeff, toPoly_natDegree_modulus hftop hfub, toPoly_coeff]
  simp [hftop]

/-- Two reduced representatives congruent modulo the modulus are equal. -/
theorem congr_eq_of_dvd {m f x y : Nat} (hm : 0 < m) (hftop : f.testBit m = true)
    (hfub : f < 2 ^ (m + 1)) (hx : x < 2 ^ m) (hy : y < 2 ^ m)
    (hdvd : toPoly f ∣ (toPoly x - toPoly y)) : x = y := by
  by_contra hne
  have hdiff : toPoly x - toPoly y ≠ 0 := sub_ne_zero.mpr (fun hc => hne (toPoly_inj hc))
  have hdeg := Polynomial.natDegree_le_of_dvd hdvd hdiff
  rw [toPoly_natDegree_modulus hftop hfub] at hdeg
  have hx' : (toPoly x).natDegree ≤ m - 1 :=
    toPoly_natDegree_le (by rw [Nat.sub_add_cancel hm]; exact hx)
  have hy' : (toPoly y).natDegree ≤ m - 1 :=
    toPoly_natDegree_le (by rw [Nat.sub_add_cancel hm]; exact hy)
  have hsub := Polynomial.natDegree_sub_le (toPoly x) (toPoly y)
  omega

/-- Correctness of the modelled modular inversion, given that the modulus is
irreducible over GF(2): for nonzero reduced `a` it returns `some b` with
`a · b ≡ 1` under the modelled field multiplication. -/
theorem modinv_spec (W m f a : Nat) (hWm : m + 1 ≤ W) (hm : 0 < m)
    (hftop : f.testBit m = true) (hfub : f < 2 ^ (m + 1))
    (hirr : Irreducible (toPoly f)) (ha0 : a ≠ 0) (ham : a < 2 ^ m) :
    ∃ b, modinv W m f a = some b ∧ b < 2 ^ m ∧ fieldMul m f a b = 1 := by
  have hp2m : (0 : Nat) < 2 ^ m := Nat.pos_pow_of_pos _ two_pos
  have hf0 : f ≠ 0 := by
    have := Nat.testBit_implies_ge hftop
    omega
  have hfW : f < 2 ^ W := lt_of_lt_of_le hfub (Nat.pow_le_pow_right two_pos hWm)
  have haW : a < 2 ^ W :=
    lt_of_lt_of_le ham (Nat.pow_le_pow_right two_pos (by omega))
  have hblenf : bitLenAux W f = m + 1 := by
    have h1 : bitLenAux W f ≤ m + 1 := (bitLenAux_le_iff W f (m + 1) hfW).mpr hfub
    have h2 : ¬ (bitLenAux W f ≤ m) := by
      rw [bitLenAux_le_iff W f m hfW]
      push_neg
      exact Nat.testBit_implies_ge hftop
    omega
  have heea := eeaAux_spec W m a f hWm (m + 1) f a 0 1
    (lt_of_lt_of_le ham (Nat.pow_le_pow_right two_pos (by omega)))
    hf0 hfW haW
    (by rw [hblenf]; simpa using ham)
    (by rw [hblenf])
    (by rw [hblenf]; simpa using Nat.pos_pow_of_pos 1 two_pos)
    (by rw [hblenf]; simpa using one_lt_two)
    ⟨1, by simp⟩
    ⟨0, by simp⟩
    (fun p => and_comm)
  obtain ⟨hg0, ⟨t, hBez⟩, hDiv, hslt⟩ := heea
  set g := (eeaAux W (m + 1) f a 0 1).1 with hgdef
  set s := (eeaAux W (m + 1) f a 0 1).2 with hsdef
  have hgdvd : toPoly g ∣ toPoly a ∧ toPoly g ∣ toPoly f := (hDiv (toPoly g)).mp dvd_rfl
  have hgunit : IsUnit (toPoly g) := by
    rcases hgdvd.2 with ⟨c, hc⟩
    rcases hirr.isUnit_or_isUnit hc with hu | hu
    · exact hu
    · exfalso
      obtain ⟨d, hd⟩ := isUnit_iff_exists_inv.mp hu
      have hFg : toPoly f ∣ toPoly g := by
        refine ⟨d, ?_⟩
        calc toPoly g = toPoly g * (c * d) := by rw [hd, mul_one]
          _ = (toPoly g * c) * d := by ring
          _ = toPoly f * d := by rw [← hc]
      have hFa : toPoly f ∣ toPoly a := dvd_trans hFg hgdvd.1
      have hane := toPoly_ne_zero ha0
      have hdeg := Polynomial.natDegree_le_of_dvd hFa hane
      rw [toPoly_natDegree_modulus hftop hfub] at hdeg
      have hadeg : (toPoly a).natDegree ≤ m - 1 :=
        toPoly_natDegree_le (by rw [Nat.sub_add_cancel hm]; exact ham)
      omega
  have hg1 : g = 1 := by
    rcases Polynomial.isUnit_iff.mp hgunit with ⟨r, hru, hrC⟩
    have hcases : ∀ r : ZMod 2, r = 0 ∨ r = 1 := by decide
    rcases hcases r with rfl | rfl
    · exact absurd hru not_isUnit_zero
    · apply toPoly_inj
      rw [← hrC, Polynomial.C_1, toPoly_one]
  rw [hg1, toPoly_one] at hBez
  have hsprec : s < 2 ^ (m + (m + 1)) :=
    lt_of_lt_of_le hslt (Nat.pow_le_pow_right two_pos (by omega))
  obtain ⟨hred, hsred_lt, _⟩ := divModAux_spec f m hftop hfub (m + 1) 0 s hsprec
  rw [clmulNat_zero_left, Nat.zero_xor] at hred
  set q1 := (divModAux f m (m + 1) 0 s).1 with hq1def
  set b := (divModAux f m (m + 1) 0 s).2 with hbdef
  have hPs : toPoly s = toPoly q1 * toPoly f + toPoly b := by
    rw [← hred, toPoly_xor, toPoly_clmulNat]
  have hmodinv : modinv W m f a = some b := by
    rw [modinv, if_neg ha0]
  have hclm : clmulAux m a b = clmulNat a b := clmulAux_eq_clmulNat m a b hsred_lt
  have hprod_lt : clmulNat a b < 2 ^ (m + m) := by
    have hsharp := clmulNat_lt_sharp
      (x := a) (y := b) (i := m - 1) (j := m - 1)
      (by rw [Nat.sub_add_cancel hm]; exact ham)
      (by rw [Nat.sub_add_cancel hm]; exact hsred_lt)
    exact lt_of_lt_of_le hsharp (Nat.pow_le_pow_right two_pos (by omega))
  obtain ⟨hmul, hrem_lt, _⟩ := divModAux_spec f m hftop hfub m 0 (clmulAux m a b)
    (by rw [hclm]; exact hprod_lt)
  rw [clmulNat_zero_left, Nat.zero_xor] at hmul
  set q2 := (divModAux f m m 0 (clmulAux m a b)).1 with hq2def
  set rem := (divModAux f m m 0 (clmulAux m a b)).2 with hremdef
  have hPrem : toPoly a * toPoly b = toPoly q2 * toPoly f + toPoly rem := by
    have h1 : toPoly (clmulAux m a b) = toPoly a * toPoly b := toPoly_clmulAux m a b hsred_lt
    rw [← h1, ← hmul, toPoly_xor, toPoly_clmulNat]
  have hdvd1 : toPoly f ∣ (toPoly rem - toPoly 1) := by
    rw [toPoly_one]
    refine ⟨-(t + toPoly a * toPoly q1 + toPoly q2), ?_⟩
    linear_combination hBez - toPoly a * hPs - hPrem
  have hone_lt : 1 < 2 ^ m :=
    lt_of_lt_of_le one_lt_two (by simpa using Nat.pow_le_pow_right two_pos hm)
  have hrem1 : rem = 1 := congr_eq_of_dvd hm hftop hfub hrem_lt hone_lt hdvd1
  exact ⟨b, hmodinv, hsred_lt, hrem1⟩

/-- The GF(2^128) modulus of src/gf2.rs: x^128 + x^77 + x^35 + x^11 + 1. -/
def f128 : Nat := (1 <<< 128) ^^^ (1 <<< 77) ^^^ (1 <<< 35) ^^^ (1 <<< 11) ^^^ 1

/-- The GF(2^192) modulus of src/gf2.rs: x^192 + x^142 + x^103 + x^17 + 1. -/
def f192 : Nat := (1 <<< 192) ^^^ (1 <<< 142) ^^^ (1 <<< 103) ^^^ (1 <<< 17) ^^^ 1

/-- The GF(2^256) modulus of src/gf2.rs: x^256 + x^241 + x^178 + x^121 + 1. -/
def f256 : Nat := (1 <<< 256) ^^^ (1 <<< 241) ^^^ (1 <<< 178) ^^^ (1 <<< 121) ^^^ 1

namespace GF2p128

/-- Modelled from the spec (§4.5): the value-level model of the `GF2p128`
type generated by `galois_field!` in src/gf2.rs; an element is its reduced
polynomial value of degree < 128. -/
def add (a b : Nat) : Nat := fieldAdd a b

def sub (a b : Nat) : Nat := fieldSub a b

def mul (a b : Nat) : Nat := fieldMul 128 f128 a b

def inv (a : Nat) : Option Nat := modinv 258 128 f128 a

/-- Modelled from the spec (§4.6) and the trait declaration in src/gf2.rs
(lines 7–19): `random` samples an element by filling the limb array from an
external randomness source; the pure model threads the drawn entropy as an
explicit input and keeps its low 128 bits, so every limb array is reachable. -/
def random (e : Nat) : Nat := e % 2 ^ 128

end GF2p128

namespace GF2p192

/-- Modelled from the spec (§4.5): the value-level model of `GF2p192`. -/
def add (a b : Nat) : Nat := fieldAdd a b

def sub (a b : Nat) : Nat := fieldSub a b

def mul (a b : Nat) : Nat := fieldMul 192 f192 a b

def inv (a : Nat) : Option Nat := modinv 386 192 f192 a

/-- Modelled from the spec (§4.6) and the trait declaration in src/gf2.rs
(lines 7–19): `random` samples an element by filling the limb array from an
external randomness source; the pure model threads the drawn entropy as an
explicit input and keeps its low 192 bits, so every limb array is reachable. -/
def random (e : Nat) : Nat := e % 2 ^ 192

end GF2p192

namespace GF2p256

/-- Modelled from the spec (§4.5): the value-level model of `GF2p256`. -/
def add (a b : Nat) : Nat := fieldAdd a b

def sub (a b : Nat) : Nat := fieldSub a b

def mul (a b : Nat) : Nat := fieldMul 256 f256 a b

def inv (a : Nat) : Option Nat := modinv 514 256 f256 a

/-- Modelled from the spec (§4.6) and the trait declaration in src/gf2.rs
(lines 7–19): `random` samples an element by filling the limb array from an
external randomness source; the pure model threads the drawn entropy as an
explicit input and keeps its low 256 bits, so every limb array is reachable. -/
def random (e : Nat) : Nat := e % 2 ^ 256

end GF2p256

theorem f128_facts : f128.testBit 128 = true ∧ f128 < 2 ^ (128 + 1) := by
  constructor
  · decide
  · have h : (2 : Nat) ^ (128 + 1) = 1 <<< 129 := by rw [Nat.shiftLeft_eq, one_mul]
    rw [h]
    decide

theorem f192_facts : f192.testBit 192 = true ∧ f192 < 2 ^ (192 + 1) := by
  constructor
  · decide
  · have h : (2 : Nat) ^ (192 + 1) = 1 <<< 193 := by rw [Nat.shiftLeft_eq, one_mul]
    rw [h]
    decide

theorem f256_facts : f256.testBit 256 = true ∧ f256 < 2 ^ (256 + 1) := by
  constructor
  · decide
  · have h : (2 : Nat) ^ (256 + 1) = 1 <<< 257 := by rw [Nat.shiftLeft_eq, one_mul]
    rw [h]
    decide

theorem modinv_none_iff (W m f a : Nat) : modinv W m f a = none ↔ a = 0 := by
  rw [modinv]
  by_cases h : a = 0 <;> simp [h]

theorem modinv_isSome (W m f a : Nat) (h : a ≠ 0) : ∃ b, modinv W m f a = some b :=
  ⟨_, by rw [modinv, if_neg h]⟩

theorem fieldMul_lt (m f : Nat) (hftop : f.testBit m = true) (hfub : f < 2 ^ (m + 1))
    (a b : Nat) (ha : a < 2 ^ m) : fieldMul m f a b < 2 ^ m := by
  have hprec : clmulAux m a b < 2 ^ (m + m) := clmulAux_lt m a b m ha
  exact (divModAux_spec f m hftop hfub m 0 (clmulAux m a b) hprec).2.1

/-- C4: modular inversion is the only fallible operation: for each of the
three field types, `inv a = none` iff `a` is the zero polynomial, and
otherwise a value is always produced (no panic/abort — the model is a total
function into `Option`); addition and multiplication are total and stay in
range. -/
theorem claim_C4 :
    (∀ a : Nat, GF2p128.inv a = none ↔ a = 0) ∧
    (∀ a : Nat, GF2p192.inv a = none ↔ a = 0) ∧
    (∀ a : Nat, GF2p256.inv a = none ↔ a = 0) ∧
    (∀ a : Nat, a ≠ 0 → ∃ b, GF2p128.inv a = some b) ∧
    (∀ a : Nat, a ≠ 0 → ∃ b, GF2p192.inv a = some b) ∧
    (∀ a : Nat, a ≠ 0 → ∃ b, GF2p256.inv a = some b) ∧
    (∀ a b : Nat, a < 2 ^ 128 → GF2p128.mul a b < 2 ^ 128) ∧
    (∀ a b : Nat, a < 2 ^ 192 → GF2p192.mul a b < 2 ^ 192) ∧
    (∀ a b : Nat, a < 2 ^ 256 → GF2p256.mul a b < 2 ^ 256) ∧
    (∀ a b : Nat, GF2p128.add a b = a ^^^ b ∧ GF2p128.sub a b = a ^^^ b) := by
  refine ⟨fun a => modinv_none_iff _ _ _ a, fun a => modinv_none_iff _ _ _ a,
    fun a => modinv_none_iff _ _ _ a,
    fun a h => modinv_isSome _ _ _ a h, fun a h => modinv_isSome _ _ _ a h,
    fun a h => modinv_isSome _ _ _ a h, ?_, ?_, ?_, fun a b => ⟨rfl, rfl⟩⟩
  · exact fun a b ha => fieldMul_lt 128 f128 f128_facts.1 f128_facts.2 a b ha
  · exact fun a b ha => fieldMul_lt 192 f192 f192_facts.1 f192_facts.2 a b ha
  · exact fun a b ha => fieldMul_lt 256 f256 f256_facts.1 f256_facts.2 a b ha

/-- Witness for C4 (the in-range parts have hypotheses) at a = 1, b = 0. -/
theorem claim_C4_witness :
    GF2p128.mul 1 0 < 2 ^ 128 ∧ (∃ b, GF2p128.inv 1 = some b) ∧ GF2p128.inv 0 = none :=
  ⟨claim_C4.2.2.2.2.2.2.1 1 0 (by decide), claim_C4.2.2.2.1 1 one_ne_zero,
    (claim_C4.1 0).mpr rfl⟩

/-- Modelled from the spec (§4.6): the `FieldArithmetic` capability set.  The
trait itself is declared in src/gf2.rs (lines 7–19); its implementations for
the three concrete field types are not under src/, so they are modelled from
the spec's "implemented identically in shape by every field type".  The
nondeterministic `random` capability draws from an external randomness source
(`rand::thread_rng` filling the limb array); the pure model makes that source
an explicit entropy argument. -/
structure FieldArithmetic (α : Type) where
  is_zero : α → Bool
  is_one : α → Bool
  zero : α
  one : α
  random : Nat → α
  modadd : α → α → α
  modsub : α → α → α
  modmul : α → α → α
  modinv : α → Option α

/-- Modelled from the spec: the `FieldArithmetic` implementation of `GF2p128`. -/
def GF2p128.fieldArithmetic : FieldArithmetic Nat where
  is_zero a := a == 0
  is_one a := a == 1
  zero := 0
  one := 1
  random := GF2p128.random
  modadd := GF2p128.add
  modsub := GF2p128.sub
  modmul := GF2p128.mul
  modinv := GF2p128.inv

/-- Modelled from the spec: the `FieldArithmetic` implementation of `GF2p192`. -/
def GF2p192.fieldArithmetic : FieldArithmetic Nat where
  is_zero a := a == 0
  is_one a := a == 1
  zero := 0
  one := 1
  random := GF2p192.random
  modadd := GF2p192.add
  modsub := GF2p192.sub
  modmul := GF2p192.mul
  modinv := GF2p192.inv

/-- Modelled from the spec: the `FieldArithmetic` implementation of `GF2p256`. -/
def GF2p256.fieldArithmetic : FieldArithmetic Nat where
  is_zero a := a == 0
  is_one a := a == 1
  zero := 0
  one := 1
  random := GF2p256.random
  modadd := GF2p256.add
  modsub := GF2p256.sub
  modmul := GF2p256.mul
  modinv := GF2p256.inv

/-- C7: every concrete field type satisfies the FieldArithmetic contract with
the same shape — each provides is_zero, is_one, zero, one, random, modadd,
modsub, modmul, modinv, the arithmetic capabilities agreeing with the type's
own operations, the predicates deciding equality with the constants, and the
random capability total, in range, and reaching every reduced element. -/
theorem claim_C7 :
    (GF2p128.fieldArithmetic.modadd = GF2p128.add
      ∧ GF2p128.fieldArithmetic.modsub = GF2p128.sub
      ∧ GF2p128.fieldArithmetic.modmul = GF2p128.mul
      ∧ GF2p128.fieldArithmetic.modinv = GF2p128.inv
      ∧ (∀ a, GF2p128.fieldArithmetic.is_zero a = true ↔ a = GF2p128.fieldArithmetic.zero)
      ∧ (∀ a, GF2p128.fieldArithmetic.is_one a = true ↔ a = GF2p128.fieldArithmetic.one)
      ∧ GF2p128.fieldArithmetic.random = GF2p128.random
      ∧ (∀ e, GF2p128.fieldArithmetic.random e < 2 ^ 128)
      ∧ (∀ a, a < 2 ^ 128 → GF2p128.fieldArithmetic.random a = a))
    ∧ (GF2p192.fieldArithmetic.modadd = GF2p192.add
      ∧ GF2p192.fieldArithmetic.modsub = GF2p192.sub
      ∧ GF2p192.fieldArithmetic.modmul = GF2p192.mul
      ∧ GF2p192.fieldArithmetic.modinv = GF2p192.inv
      ∧ (∀ a, GF2p192.fieldArithmetic.is_zero a = true ↔ a = GF2p192.fieldArithmetic.zero)
      ∧ (∀ a, GF2p192.fieldArithmetic.is_one a = true ↔ a = GF2p192.fieldArithmetic.one)
      ∧ GF2p192.fieldArithmetic.random = GF2p192.random
      ∧ (∀ e, GF2p192.fieldArithmetic.random e < 2 ^ 192)
      ∧ (∀ a, a < 2 ^ 192 → GF2p192.fieldArithmetic.random a = a))
    ∧ (GF2p256.fieldArithmetic.modadd = GF2p256.add
      ∧ GF2p256.fieldArithmetic.modsub = GF2p256.sub
      ∧ GF2p256.fieldArithmetic.modmul = GF2p256.mul
      ∧ GF2p256.fieldArithmetic.modinv = GF2p256.inv
      ∧ (∀ a, GF2p256.fieldArithmetic.is_zero a = true ↔ a = GF2p256.fieldArithmetic.zero)
      ∧ (∀ a, GF2p256.fieldArithmetic.is_one a = true ↔ a = GF2p256.fieldArithmetic.one)
      ∧ GF2p256.fieldArithmetic.random = GF2p256.random
      ∧ (∀ e, GF2p256.fieldArithmetic.random e < 2 ^ 256)
      ∧ (∀ a, a < 2 ^ 256 → GF2p256.fieldArithmetic.random a = a)) :=
  ⟨⟨rfl, rfl, rfl, rfl, fun a => beq_iff_eq, fun a => beq_iff_eq, rfl,
      fun e => Nat.mod_lt e (Nat.pos_pow_of_pos _ two_pos),
      fun a ha => Nat.mod_eq_of_lt ha⟩,
    ⟨rfl, rfl, rfl, rfl, fun a => beq_iff_eq, fun a => beq_iff_eq, rfl,
      fun e => Nat.mod_lt e (Nat.pos_pow_of_pos _ two_pos),
      fun a ha => Nat.mod_eq_of_lt ha⟩,
    ⟨rfl, rfl, rfl, rfl, fun a => beq_iff_eq, fun a => beq_iff_eq, rfl,
      fun e => Nat.mod_lt e (Nat.pos_pow_of_pos _ two_pos),
      fun a ha => Nat.mod_eq_of_lt ha⟩⟩

/-- Witness for C7 (the reachability parts have hypotheses) at a = 5. -/
theorem claim_C7_witness :
    GF2p128.fieldArithmetic.random 5 = 5 ∧ GF2p192.fieldArithmetic.random 5 = 5
      ∧ GF2p256.fieldArithmetic.random 5 = 5 :=
  ⟨claim_C7.1.2.2.2.2.2.2.2.2 5 (by decide),
    claim_C7.2.1.2.2.2.2.2.2.2.2 5 (by decide),
    claim_C7.2.2.2.2.2.2.2.2.2.2 5 (by decide)⟩

theorem two_pow_sub_one_dvd {d m : Nat} (hd : 0 < d) (h : 2 ^ d - 1 ∣ 2 ^ m - 1) :
    d ∣ m := by
  by_cases hd1 : d = 1
  · rw [hd1]
    exact one_dvd m
  have hd2 : 2 ≤ d := by omega
  have hpow_pos : ∀ k : Nat, (0 : Nat) < 2 ^ k := fun k => Nat.pos_pow_of_pos _ two_pos
  have hbase : 2 ^ d ≡ 1 [MOD 2 ^ d - 1] := by
    have hrw : 2 ^ d = (2 ^ d - 1) + 1 := by
      have := hpow_pos d
      omega
    unfold Nat.ModEq
    nth_rewrite 1 [hrw]
    exact Nat.add_mod_left _ _
  have hmod : 2 ^ m ≡ 2 ^ (m % d) [MOD 2 ^ d - 1] := by
    conv_lhs => rw [← Nat.div_add_mod m d]
    rw [pow_add, pow_mul]
    calc (2 ^ d) ^ (m / d) * 2 ^ (m % d)
        ≡ 1 ^ (m / d) * 2 ^ (m % d) [MOD 2 ^ d - 1] :=
          Nat.ModEq.mul_right _ (hbase.pow _)
      _ = 2 ^ (m % d) := by rw [one_pow, one_mul]
  have hm1 : 2 ^ m ≡ 1 [MOD 2 ^ d - 1] := by
    have := (Nat.modEq_iff_dvd' (hpow_pos m)).mpr h
    exact this.symm
  have hr : 2 ^ (m % d) ≡ 1 [MOD 2 ^ d - 1] := hmod.symm.trans hm1
  have hrd : m % d < d := Nat.mod_lt _ hd
  have hd1' : (2 : Nat) ≤ 2 ^ (d - 1) := by
    calc (2 : Nat) = 2 ^ 1 := (pow_one 2).symm
      _ ≤ 2 ^ (d - 1) := Nat.pow_le_pow_right two_pos (by omega)
  have hsplit : 2 ^ d = 2 * 2 ^ (d - 1) := by
    rw [← pow_succ']
    congr 1
    omega
  have hsmall : 2 ^ (m % d) < 2 ^ d - 1 := by
    calc 2 ^ (m % d) ≤ 2 ^ (d - 1) := Nat.pow_le_pow_right two_pos (by omega)
      _ < 2 ^ d - 1 := by omega
  have hone : 1 < 2 ^ d - 1 := by omega
  have heq : 2 ^ (m % d) = 1 := by
    have hmodeq := hr
    unfold Nat.ModEq at hmodeq
    rwa [Nat.mod_eq_of_lt hsmall, Nat.mod_eq_of_lt hone] at hmodeq
  have hzero : m % d = 0 := by
    by_contra hne
    have h2le : 2 ≤ 2 ^ (m % d) := by
      calc (2 : Nat) = 2 ^ 1 := (pow_one 2).symm
        _ ≤ 2 ^ (m % d) := Nat.pow_le_pow_right two_pos (by omega)
    omega
  exact Nat.dvd_of_mod_eq_zero hzero

theorem zmod2_eq_zero_or_one : ∀ c : ZMod 2, c = 0 ∨ c = 1 := by decide

/-- Rabin's irreducibility criterion over GF(2): a monic polynomial of degree
`m ≥ 1` that divides `X^(2^m) - X` and is coprime to `X^(2^(m/p)) - X` for
every prime `p ∣ m` is irreducible. -/
theorem rabin_irreducible (f : Polynomial (ZMod 2)) (m : ℕ) (hm : 0 < m)
    (hdeg : f.natDegree = m) (hmonic : f.Monic)
    (h1 : f ∣ Polynomial.X ^ 2 ^ m - Polynomial.X)
    (h2 : ∀ p : ℕ, p.Prime → p ∣ m →
      IsCoprime (Polynomial.X ^ 2 ^ (m / p) - Polynomial.X : Polynomial (ZMod 2)) f) :
    Irreducible f := by
  obtain ⟨g, hgirr, hgdvd⟩ :=
    Polynomial.exists_irreducible_of_natDegree_pos (f := f) (by omega)
  haveI hfact : Fact (Irreducible g) := ⟨hgirr⟩
  have hd0 : 0 < g.natDegree := hgirr.natDegree_pos
  have hg0 : g ≠ 0 := hgirr.ne_zero
  haveI : CharP (AdjoinRoot g) 2 :=
    charP_of_injective_algebraMap (algebraMap (ZMod 2) (AdjoinRoot g)).injective 2
  haveI : Fact (Nat.Prime 2) := ⟨Nat.prime_two⟩
  have hdvdg : g ∣ Polynomial.X ^ 2 ^ m - Polynomial.X := hgdvd.trans h1
  have hroot : (AdjoinRoot.root g) ^ 2 ^ m = AdjoinRoot.root g := by
    have hmk := AdjoinRoot.mk_eq_zero.mpr hdvdg
    rw [map_sub, map_pow, AdjoinRoot.mk_X] at hmk
    exact sub_eq_zero.mp hmk
  have hfix : ∀ u : AdjoinRoot g, u ^ 2 ^ m = u := by
    have hFα : iterateFrobenius (AdjoinRoot g) 2 m (AdjoinRoot.root g)
        = AdjoinRoot.root g := by
      rw [iterateFrobenius_def]
      exact hroot
    have h3 : Subring.closure
        (Set.range (algebraMap (ZMod 2) (AdjoinRoot g)) ∪ {AdjoinRoot.root g}) = ⊤ := by
      rw [← Algebra.adjoin_eq_ring_closure, AdjoinRoot.adjoinRoot_eq_top]
      rfl
    have htop : RingHom.eqLocus (iterateFrobenius (AdjoinRoot g) 2 m)
        (RingHom.id (AdjoinRoot g)) = ⊤ := by
      apply le_antisymm le_top
      rw [← h3]
      apply Subring.closure_le.mpr
      rintro x (hx | hx)
      · obtain ⟨c, rfl⟩ := hx
        rcases zmod2_eq_zero_or_one c with rfl | rfl
        · show iterateFrobenius (AdjoinRoot g) 2 m _ = RingHom.id _ _
          simp
        · show iterateFrobenius (AdjoinRoot g) 2 m _ = RingHom.id _ _
          simp
      · rw [Set.mem_singleton_iff] at hx
        subst hx
        exact hFα
    intro u
    have hu : u ∈ RingHom.eqLocus (iterateFrobenius (AdjoinRoot g) 2 m)
        (RingHom.id (AdjoinRoot g)) := by
      rw [htop]
      exact Subring.mem_top u
    have huF : iterateFrobenius (AdjoinRoot g) 2 m u = u := hu
    rwa [iterateFrobenius_def] at huF
  haveI : Module.Finite (ZMod 2) (AdjoinRoot g) := (AdjoinRoot.powerBasis hg0).finite
  haveI : Finite (AdjoinRoot g) := Module.finite_of_finite (ZMod 2)
  haveI : Fintype (AdjoinRoot g) := Fintype.ofFinite _
  have hcard : Fintype.card (AdjoinRoot g) = 2 ^ g.natDegree := by
    rw [card_eq_pow_finrank (K := ZMod 2) (V := AdjoinRoot g),
      (AdjoinRoot.powerBasis hg0).finrank, ZMod.card]
    congr 1
  obtain ⟨x, hx⟩ := IsCyclic.exists_generator (α := (AdjoinRoot g)ˣ)
  have hord : orderOf x = Nat.card (AdjoinRoot g)ˣ := orderOf_generator_eq_natCard hx
  have hcardu : Nat.card (AdjoinRoot g)ˣ = 2 ^ g.natDegree - 1 := by
    rw [Nat.card_units, Nat.card_eq_fintype_card, hcard]
  have hxpow : x ^ (2 ^ m - 1) = 1 := by
    have hv : ((x : AdjoinRoot g)) ^ 2 ^ m = x := hfix x
    have hxm : x ^ 2 ^ m = x := Units.ext (by rw [Units.val_pow_eq_pow_val]; exact hv)
    have h1le : 1 ≤ 2 ^ m := Nat.pos_pow_of_pos _ two_pos
    have hmul : x ^ (2 ^ m - 1) * x = 1 * x := by
      rw [one_mul, ← pow_succ, Nat.sub_add_cancel h1le, hxm]
    exact mul_right_cancel hmul
  have hdvd_ord : 2 ^ g.natDegree - 1 ∣ 2 ^ m - 1 := by
    rw [← hcardu, ← hord]
    exact orderOf_dvd_of_pow_eq_one hxpow
  have hddvdm : g.natDegree ∣ m := two_pow_sub_one_dvd hd0 hdvd_ord
  by_cases hdm : g.natDegree = m
  · obtain ⟨c, hc⟩ := hgdvd
    have hf0 : f ≠ 0 := hmonic.ne_zero
    have hc0 : c ≠ 0 := by
      rintro rfl
      rw [mul_zero] at hc
      exact hf0 hc
    have hdegmul := Polynomial.natDegree_mul hg0 hc0
    rw [← hc, hdeg] at hdegmul
    have hdegc : c.natDegree = 0 := by omega
    obtain ⟨a, ha⟩ := Polynomial.natDegree_eq_zero.mp hdegc
    have ha0 : a ≠ 0 := by
      rintro rfl
      rw [Polynomial.C_0] at ha
      exact hc0 ha.symm
    have hu : IsUnit c := by
      rw [← ha]
      exact Polynomial.isUnit_C.mpr (isUnit_iff_ne_zero.mpr ha0)
    have hassoc : Associated g f := ⟨hu.unit, by rw [IsUnit.unit_spec]; exact hc.symm⟩
    exact hassoc.irreducible hgirr
  · exfalso
    have hdlt : g.natDegree < m := lt_of_le_of_ne (Nat.le_of_dvd hm hddvdm) hdm
    have hkne1 : m / g.natDegree ≠ 1 := by
      intro hk
      have hcancel := Nat.div_mul_cancel hddvdm
      rw [hk, one_mul] at hcancel
      omega
    obtain ⟨p, hp, hpdvd⟩ := Nat.exists_prime_and_dvd hkne1
    have hpm : p ∣ m := hpdvd.trans (Nat.div_dvd_of_dvd hddvdm)
    obtain ⟨u, hu⟩ := hpdvd
    have hmdu : m = g.natDegree * (p * u) := by
      rw [← hu, Nat.mul_div_cancel' hddvdm]
    have hdmp : m / p = g.natDegree * u := by
      rw [hmdu, show g.natDegree * (p * u) = p * (g.natDegree * u) from by ring,
        Nat.mul_div_cancel_left _ hp.pos]
    have hferm : ∀ v : AdjoinRoot g, v ^ 2 ^ g.natDegree = v := by
      intro v
      have := FiniteField.pow_card v
      rwa [hcard] at this
    have hiter : ∀ (j : ℕ) (v : AdjoinRoot g), v ^ 2 ^ (g.natDegree * j) = v := by
      intro j
      induction j with
      | zero => intro v; simp
      | succ j ih =>
        intro v
        have hexp : 2 ^ (g.natDegree * (j + 1)) = 2 ^ (g.natDegree * j) * 2 ^ g.natDegree := by
          rw [← pow_add]
          ring_nf
        rw [hexp, pow_mul, ih v]
        exact hferm v
    have hαp : (AdjoinRoot.root g) ^ 2 ^ (m / p) = AdjoinRoot.root g := by
      rw [hdmp]
      exact hiter u _
    have hgdvd2 : g ∣ Polynomial.X ^ 2 ^ (m / p) - Polynomial.X := by
      rw [← AdjoinRoot.mk_eq_zero, map_sub, map_pow, AdjoinRoot.mk_X, hαp, sub_self]
    exact hgirr.not_unit ((h2 p hp hpm).isUnit_of_dvd' hgdvd2 hgdvd)

/-- One squaring-and-reduce step checker: the list is a valid chain of
successive modular squares starting from `v`. -/
def sqChainOK (m f : Nat) : Nat → List Nat → Bool
  | _, [] => true
  | v, w :: rest => (fieldMul m f v v == w) && sqChainOK m f w rest

/-- The last element of a chain with explicit head. -/
def chainLast (v : Nat) : List Nat → Nat
  | [] => v
  | w :: rest => chainLast w rest

theorem fieldMul_dvd (m f a b : Nat) (hftop : f.testBit m = true)
    (hfub : f < 2 ^ (m + 1)) (ha : a < 2 ^ m) (hb : b < 2 ^ m) :
    toPoly f ∣ (toPoly (fieldMul m f a b) - toPoly a * toPoly b) := by
  unfold fieldMul
  set q := (divModAux f m m 0 (clmulAux m a b)).1 with hq
  set r := (divModAux f m m 0 (clmulAux m a b)).2 with hr
  obtain ⟨hmul, _, _⟩ :=
    divModAux_spec f m hftop hfub m 0 (clmulAux m a b) (clmulAux_lt m a b m ha)
  rw [clmulNat_zero_left, Nat.zero_xor] at hmul
  have hP : toPoly a * toPoly b = toPoly q * toPoly f + toPoly r := by
    rw [← toPoly_clmulAux m a b hb, ← hmul, toPoly_xor, toPoly_clmulNat]
  exact ⟨-(toPoly q), by linear_combination -hP⟩

theorem sqChain_spec (m f : Nat) (hftop : f.testBit m = true)
    (hfub : f < 2 ^ (m + 1)) :
    ∀ (l : List Nat) (v k : Nat), sqChainOK m f v l = true → v < 2 ^ m →
      toPoly f ∣ (toPoly v - Polynomial.X ^ 2 ^ k) →
      chainLast v l < 2 ^ m ∧
      toPoly f ∣ (toPoly (chainLast v l) - Polynomial.X ^ 2 ^ (k + l.length)) := by
  intro l
  induction l with
  | nil =>
    intro v k _ hv hdvd
    exact ⟨hv, by simpa using hdvd⟩
  | cons w rest ih =>
    intro v k hchain hv hdvd
    simp only [sqChainOK, Bool.and_eq_true, beq_iff_eq] at hchain
    obtain ⟨hstep, hrest⟩ := hchain
    have hw : w < 2 ^ m := hstep ▸ fieldMul_lt m f hftop hfub v v hv
    have hwdvd : toPoly f ∣ (toPoly w - Polynomial.X ^ 2 ^ (k + 1)) := by
      have hfm := fieldMul_dvd m f v v hftop hfub hv hv
      rw [hstep] at hfm
      obtain ⟨w1, hw1⟩ := hfm
      obtain ⟨w2, hw2⟩ := hdvd
      refine ⟨w1 + (toPoly v + Polynomial.X ^ 2 ^ k) * w2, ?_⟩
      have hpow : (Polynomial.X : Polynomial (ZMod 2)) ^ 2 ^ (k + 1)
          = Polynomial.X ^ 2 ^ k * Polynomial.X ^ 2 ^ k := by
        rw [← pow_add]
        congr 1
        rw [pow_succ]
        omega
      rw [hpow]
      linear_combination hw1 + (toPoly v + Polynomial.X ^ 2 ^ k) * hw2
    have hres := ih w (k + 1) hrest hw hwdvd
    simp only [chainLast, List.length_cons]
    rw [show k + (rest.length + 1) = (k + 1) + rest.length from by omega]
    exact hres

theorem sqChainOK_take (m f : Nat) :
    ∀ (l : List Nat) (v n : Nat), sqChainOK m f v l = true →
      sqChainOK m f v (l.take n) = true := by
  intro l
  induction l with
  | nil =>
    intro v n _
    simp [sqChainOK]
  | cons w rest ih =>
    intro v n h
    cases n with
    | zero => simp [sqChainOK]
    | succ n =>
      rw [List.take_succ_cons]
      simp only [sqChainOK, Bool.and_eq_true, beq_iff_eq] at h ⊢
      exact ⟨h.1, ih w n h.2⟩

/-- An extended-Euclid run on a certificate value `c` against the modulus
whose final remainder is the constant 1 yields a Bezout identity, hence
coprimality of the polynomials. -/
theorem eea_gcd_one (W m f c : Nat) (hWm : m + 1 ≤ W) (hm : 0 < m)
    (hftop : f.testBit m = true) (hfub : f < 2 ^ (m + 1))
    (hc0 : c ≠ 0) (hcm : c < 2 ^ m)
    (hg : (eeaAux W (m + 1) f c 0 1).1 = 1) :
    IsCoprime (toPoly c) (toPoly f) := by
  have hf0 : f ≠ 0 := by
    have := Nat.testBit_implies_ge hftop
    omega
  have hfW : f < 2 ^ W := lt_of_lt_of_le hfub (Nat.pow_le_pow_right two_pos hWm)
  have hcW : c < 2 ^ W := lt_of_lt_of_le hcm (Nat.pow_le_pow_right two_pos (by omega))
  have hblenf : bitLenAux W f = m + 1 := by
    have h1 : bitLenAux W f ≤ m + 1 := (bitLenAux_le_iff W f (m + 1) hfW).mpr hfub
    have h2 : ¬ (bitLenAux W f ≤ m) := by
      rw [bitLenAux_le_iff W f m hfW]
      push_neg
      exact Nat.testBit_implies_ge hftop
    omega
  have heea := eeaAux_spec W m c f hWm (m + 1) f c 0 1
    (lt_of_lt_of_le hcm (Nat.pow_le_pow_right two_pos (by omega)))
    hf0 hfW hcW
    (by rw [hblenf]; simpa using hcm)
    (by rw [hblenf])
    (by rw [hblenf]; simpa using Nat.pos_pow_of_pos 1 two_pos)
    (by rw [hblenf]; simpa using one_lt_two)
    ⟨1, by simp⟩
    ⟨0, by simp⟩
    (fun p => and_comm)
  obtain ⟨_, ⟨t, hBez⟩, _, _⟩ := heea
  rw [hg, toPoly_one] at hBez
  exact ⟨toPoly (eeaAux W (m + 1) f c 0 1).2, t, hBez⟩

/-- Transfer a coprimality certificate for the reduced value `a ^^^ 2` to the
polynomial `X^(2^k) - X` it represents modulo the modulus. -/
theorem coprime_X_pow_sub (f a k : Nat)
    (hdvd : toPoly f ∣ (toPoly a - Polynomial.X ^ 2 ^ k))
    (hco : IsCoprime (toPoly (a ^^^ 2)) (toPoly f)) :
    IsCoprime (Polynomial.X ^ 2 ^ k - Polynomial.X : Polynomial (ZMod 2)) (toPoly f) := by
  obtain ⟨w, hw⟩ := hdvd
  obtain ⟨u, v, huv⟩ := hco
  rw [toPoly_xor, toPoly_two] at huv
  refine ⟨u, v + u * w, ?_⟩
  have hXX : (Polynomial.X : Polynomial (ZMod 2)) + Polynomial.X = 0 := polyGF2_add_self _
  linear_combination huv - u * hw - u * hXX

/-- A full squaring chain of length `m` from `X` back to `X` certifies the
Fermat-side divisibility `f ∣ X^(2^m) - X` of Rabin's criterion. -/
theorem fermat_of_chain (m f : Nat) (hftop : f.testBit m = true)
    (hfub : f < 2 ^ (m + 1)) (l : List Nat)
    (hchain : sqChainOK m f 2 l = true) (hlen : l.length = m)
    (hlast : chainLast 2 l = 2) (h2m : 2 < 2 ^ m) :
    toPoly f ∣ (Polynomial.X ^ 2 ^ m - Polynomial.X) := by
  have hbase : toPoly f ∣ (toPoly 2 - Polynomial.X ^ 2 ^ 0) := by
    rw [toPoly_two, pow_zero, pow_one, sub_self]
    exact dvd_zero _
  have hres := sqChain_spec m f hftop hfub l 2 0 hchain h2m hbase
  rw [hlast, hlen] at hres
  have h2 := hres.2
  rw [toPoly_two, Nat.zero_add] at h2
  have hneg := (dvd_neg).mpr h2
  rwa [neg_sub] at hneg

theorem prime_dvd_128 (p : Nat) (hp : p.Prime) (hdvd : p ∣ 128) : p = 2 := by
  have h : (128 : Nat) = 2 ^ 7 := by norm_num
  rw [h] at hdvd
  exact (Nat.prime_dvd_prime_iff_eq hp Nat.prime_two).mp (hp.dvd_of_dvd_pow hdvd)

theorem prime_dvd_192 (p : Nat) (hp : p.Prime) (hdvd : p ∣ 192) : p = 2 ∨ p = 3 := by
  have h : (192 : Nat) = 2 ^ 6 * 3 := by norm_num
  rw [h] at hdvd
  rcases (Nat.Prime.dvd_mul hp).mp hdvd with h1 | h1
  · exact Or.inl ((Nat.prime_dvd_prime_iff_eq hp Nat.prime_two).mp (hp.dvd_of_dvd_pow h1))
  · exact Or.inr ((Nat.prime_dvd_prime_iff_eq hp Nat.prime_three).mp h1)

theorem prime_dvd_256 (p : Nat) (hp : p.Prime) (hdvd : p ∣ 256) : p = 2 := by
  have h : (256 : Nat) = 2 ^ 8 := by norm_num
  rw [h] at hdvd
  exact (Nat.prime_dvd_prime_iff_eq hp Nat.prime_two).mp (hp.dvd_of_dvd_pow hdvd)

/-- The chain of successive modular squares of X modulo the GF(2^128)
modulus, certifying the Frobenius orbit of X. -/
def sq128 : List Nat := [
  0x4,
  0x10,
  0x100,
  0x10000,
  0x100000000,
  0x10000000000000000,
  0x20000000000800000801,
  0x80000000402000002004400001,
  0x4020100000044004010904008801001,
  0x801827064101000380c2c084b3914021,
  0xb225e42c5dec88153c1c88a5528e01,
  0x3189af2ee55adaac3aec54d1bdcb99ff,
  0xfd6e2aa049518633e0050cd1ede14a4,
  0x56d9e0ad5f8c5dc266205986903c15f3,
  0xaad27e5a29a4ec38b8c6a4417d63b4ec,
  0xb1fbf177e15598793f5de167e8af3ade,
  0xd580ea487ef2bfcf30d4f101af2cf3c2,
  0xf7c00971a99a57fbaf658202833ded71,
  0x91e16a454ff6aaa1761361e5934b9724,
  0x526645c6ee041900aa2a9b79c8571d4b,
  0x252875128a2fb1562bbfd18e9ba1bab7,
  0xa020a539f599e56e6c7101b3cf04d238,
  0x59c0579e436c8c6222c2a55c4c4b3984,
  0x35a1572b8d4ec06f134e0b56cfea23de,
  0x20d2a0e424d35d0371a11b8a6ad8f03b,
  0x28bb34dd075f788c42b4ef13628f8484,
  0x88d2411abf4fb7201afc1221b733635d,
  0x71ce8271a21a7d8d970212038205769d,
  0x8f9ec8aeec3a16f5a73fd47855c77ecb,
  0x7da1453250a1148d68bdbefab370227b,
  0x77945cce583733a24c85140f255aa86,
  0x6528e2c06aa7de9592c633446f698f,
  0x252af4c76d9455f7279f9e8df1085bd9,
  0x19d2a471423f74f173d9d64e7642a0cd,
  0xaff6689bbbc48214e6a1f656a66cc23c,
  0xe2b8b2bad6e97377c9dda6e68120233e,
  0x85d10f841a5cda049da77505c5eea3d4,
  0xf49429e7dcbd39f9c99d96adab23e64,
  0x47ede8051b32b28ef1bfb43dee7fa1a4,
  0xa8471386dddd067aa983e5cee554eb37,
  0x7685cd9a067bf1cec0f1911be7af38b1,
  0xa2777a1d2bd00c9dc3050e142c946475,
  0x60fca70b5901b9a3b77c3f98e382e614,
  0x1207bcab5fa56f403f70387fcb659c4a,
  0xf344fe8c7cdd1862d9ba344d98bdf2cc,
  0xcd19a47d989980d26579d189c134f094,
  0xe1f2dcd7f81cea1f793ecfd28dce7cb1,
  0xd005b196fc589aa9c20a3d8d0a4d192a,
  0x6e328fdbb90546d8c5cf59faf70480ad,
  0xd7c48a3464a9b87c5ad85b2d34c6252d,
  0xa178934619f9fcc9490642ff2e1904c9,
  0x7f6ea934290cc7c0df05a26085badc5f,
  0xbfb190fb6afea04a68c93dc6de2c3f84,
  0x7c913c9758229bafe6e5a5cede2d4de8,
  0xed5bdcb41da6ae575494293a769f239b,
  0x7a8e9beb371caa228062a78095c50cb7,
  0x8c4349a131eed1471598a63499568aba,
  0x7d00d6df786143d099f582623dd24f9b,
  0x5776ae7e4f6f4f48b775eea0b51ff645,
  0x2d93fad04ac180199b9b14fad476de25,
  0xfa6b9bacdc3720420b7bd2d0639d6254,
  0x6a2ebc3351ac509e3d4943a9eeac43ef,
  0x6228dc29631be8950536d61c2d5fad30,
  0x1fdacb452e3e104a5d45ec8f72604422,
  0xa94d773fe28497f8126d0309d6c0f3a7,
  0x2939fa17c26893aa413c6dfda47a673e,
  0x31971a373c77680e4cbd6f7d01280d2d,
  0x43de3678cb0650625f3f374a59c6792b,
  0xf36c8c5623ea2567093f6b741288cd2c,
  0x94efdb4b04af89f5a7107e06861954be,
  0x5040c19eda9953d8c385b760827851b4,
  0x48e77f1eee59efe3ba408e9afab70eb2,
  0x2b71989a84509fb50fee52e7959792f1,
  0x219f4850c9e65b8f784bb01f09cb5c6e,
  0xe788f3fe7e29a3f7bc606942d801d184,
  0x92b1c1b731190d2276c70478b244220c,
  0xd35a12028487ee01cf53dfcd892c0fe2,
  0x39fc9ac9635bbcde8db8d9fe9dca30ea,
  0xa6b5a9fb3c7fa7272d0bc74bdea6c06d,
  0x87dcc8ab8acbbf1735367bbb61f7c350,
  0xa6c55d77fa8ea42bef06d3e9a7d4b5da,
  0xf406bcd13d2b44ce9043397c01f90441,
  0xcf0fd95f6e0eb1b406142393926382f5,
  0xa704adaaa91d940f261cd4c5b15b7ea2,
  0xabb0cc51a6f0853ff80a21255b87627b,
  0x324c87a8f363cabe5759cb0d25991fa6,
  0xd7b95e0819ac42372c388b391745610b,
  0x590018a2f11c29ac2cdc73e61e2638ed,
  0x373c70e827333a5448389288e59f4e2b,
  0xf58983437ebedcae331016b3b45d136a,
  0x57945529574cacfa4f53d43b2e915f19,
  0xc18ebe06c4c7cd78644197424c307b2b,
  0x3fa408ff578b5c3a3643e43d888f9624,
  0x406addc2201e2f0bc9fbff725ec736cc,
  0xdb0626691e96fcc1232e3fab0210c266,
  0x85d2dcbb07c43b84f2f55279a7817a15,
  0xae584d2a767e3097a3c821fa20588e65,
  0xa0b8a73106ac97d3424e38ad8eb38fc1,
  0xff1c232847dd2713afb44e50ba338831,
  0x7318d2d9b639c4f374f735ed4dd91a29,
  0x21d1e79ad30b739287354df250182749,
  0x4b6ea335dfaa2125aac9253e2310060b,
  0xa5135a23a5dbebf23fe82ea2721cc80f,
  0x7d01e75fa28aa8dd544311c54881e3df,
  0xa1b14cc92a06cefc32aff32aa5596424,
  0x4dec40b76beec50193d707a75d817ef4,
  0xb13e2673ecec085a86ee9e560d02c0ca,
  0x77050974d091e193fde9eb131f465f17,
  0xa66d5a0e374a297111a7c7c737f23610,
  0x89da4ac531453f8a54c238957bc5b45a,
  0xebba9080d33820ad141b72702e20e4c7,
  0xc6d167a1f540f350ea49033920f403f1,
  0x20223672bbe401b8b19a67034361c56f,
  0xd3179d1ca23c923a6eea3a667dcf39ad,
  0xb27eb9d4af07b382860ca57ffd9c47b3,
  0xfea7926a426baf285f74b157c9843d54,
  0x398de1dcbe6d980494736d9e3fd16440,
  0x2983781981cd454c92559d03fd1dc71b,
  0xdb1a51b153bb9d45a3d6d0e973ddec1f,
  0xdacf5c646c5addedef2ddd257b8dfcb,
  0xb8fb7e965caac545bd9b22adf82bdc82,
  0xb4c4ef2eebb75a5510ae5e5083af1b68,
  0x8dcb425f1452b3e8e6fc24925bded433,
  0x8873ff8ea3a1935dae45c3fb43c7c0c,
  0xad13c3501d5c5d8a6329a469eccb9663,
  0x6f1eb1883698c6547fbb0c80918f0a67,
  0x583ceb30cf47f8e5c55af2daf0dce3a2,
  0x2
]

/-- The chain of successive modular squares of X modulo the GF(2^192)
modulus, certifying the Frobenius orbit of X. -/
def sq192 : List Nat := [
  0x4,
  0x10,
  0x100,
  0x10000,
  0x100000000,
  0x10000000000000000,
  0x100000000000000000000000000000000,
  0x801000000000200000000200010000000080004000,
  0x9000424109002000108000004021002090100000,
  0x42080184308492c259202809108604c349020d0104204018,
  0x539c405a71b95f748d77789c70d1328b11f00c62c8422d79,
  0xa055b7e5db1312a8bf06f0a04e7ed85aa47cebf9878496d2,
  0x951163d27f0d682e51f80c233748fb3de2a3bb3c05720ad7,
  0x7fdd5f4f869c496cc187e754aae31130ce718e63732cbfeb,
  0x2892851abee6020d7ccab4ddcc6c5a5d91270f6e5a5ed6f2,
  0xf64be5cfeb798a7aa3916a644e0c1ac99955a7c87cc316d0,
  0xea21883f16d4c062dce50a6e98ebcac3163a12da8a3a0fda,
  0xae69f3a7a4914a8eb56e39c85e55a7c0e67d7009247f24e7,
  0x39573662fcca9c8c8ffc64af9b73f5b9d9dd282aaf9a0d62,
  0xe157beb03e06cfc9fcc5d8497de2d6edc6bd9d45b42838a6,
  0xadde36bc5cca45261320090190c38cf3ec3fd3c56053a33d,
  0x88f48bd965812f1d2d6479270202518911f6a63434e1ebbd,
  0x97e6d4cf8d32ce9c7074e573a27729cf34d96eda19c5c541,
  0xdbf7ee89f923e8dbfba55fd542f52d99c771a491bfab5115,
  0x413cf6f8d5d7e00b311a12e410224cadc7a17ba25ec3f433,
  0x9ea9b63d83f3c9df94175f7c0d6a5405ad9af00e02d3eab8,
  0xf78843c6be130dbe400738e0614771e3f3ece8865cf14047,
  0x5499cd06304640abea8a38b4cfff47cb3e5495f5a43b3da8,
  0x4e378d43a4c03f7f1e09f1f15b576f2095d3715ee0077c6d,
  0x6641039cc8d7613410cc70be62124c4618372ab0caad75bb,
  0xd475194652e3e251e34d5b33ea581a4b85dbef3df37da6e7,
  0xb5ff2bb13de9f25e4958b98df06c7af01aa6669b1965b198,
  0x13d4d3bcdf5c29324fa2d194305c1fd1579fcab840bff9a,
  0x1d9e98bc857c6ea8e752d86b1f1f382e4fb168a90b01d8bb,
  0xb641b80ccf2f515ce565ed6a6d1644df85f0abdd8f46aea9,
  0xc93ff3b5663b9cdd5f79c53f52c6571613d5b6f9e078a1b6,
  0x249b7c6ccdd2bd3a7dbd72182dd17407a2e83be99b720724,
  0x4fced3876ec3e95d5267fbdb22fc931103fa198724468a47,
  0x79fdc208b5a621c564fe45a787bee16f93b71a131d33740,
  0xc045011748d9ff2229a8c59ed55dfb59873b0baa4432a375,
  0x4fa4d3dd32d54aec4889c81c83770cf205194f300f8900e9,
  0x3db5efc10ee9eb01c0f70a77ed134b0170e4bdbed878f963,
  0xd728d4dc42873bebf9082a23543d6c41809f3e2fbe867e59,
  0x72c7b6ccdba3933f8bb357a8db87b48657b9a19542ceb9be,
  0x8ecbb062baa1817625dc8ad92f2781cc2f42e505d22f7db8,
  0xb2f6c33d0ce1ef32648a543ff8fbe1649628630b857bd44e,
  0xbc8d8ab2d6be62164123ba9593ac0709dfa30b80b75adfe4,
  0xad710c5e8cfca2f4a320df82da9d1711feb4414b711421a9,
  0x5fb465de37eb59d74fb86acbd5371628021766e1abe52586,
  0xf432da7a6894188c01c4149be2a14151746d558fd1994527,
  0x46edf3ebf441de1b90f7e83f162269dac2ce93e3e68b6762,
  0x9305bb30d18ef660960ae9c03db6c81f6b338699a78421c0,
  0xd745ce60be2888fe5fdfaaa86317560d6b39058e969cf936,
  0x89e48f7a501df36136876e0ef19803686c99163e58fdd649,
  0x39a460aaa304ddd6f88026512fae5febf49c9870b47e287e,
  0x4e93c3aed9baa8da8abf782e194a6112b5784071383502ae,
  0x61c44a007be0779ff7429fec29281bc31724443f923bd79a,
  0x9b8a1fa61dec5a5c3f7ef3f1b6f71a7ac8223f2294937858,
  0x6dfafc9d294d8357debe7f4b2da116e86765569b6e25fa85,
  0xb9fcf3b9647fbb70bbb4963a65d56559f47f490f3610147,
  0x66366495ba810602d4310bf4b47a5d62eb01e2d01ed35a70,
  0xa09846fdaba76be1886627a9790bdaed9aea54aa06326da9,
  0xc4697e9d4a5a4919ee5cf2955679d19561be750bd5179799,
  0xd8933d5f0759b05fad84bed1d132b23a4b5b359aa9ca062a,
  0x9840a97c30d3e0e4e643bbbb0ef5673feb9dcedcbc505720,
  0x3a6b00bf46a4e9bde98c77744df8cc15db644ca5491e4039,
  0x664c0ac3af492b18d5ec0796323a0c4ef236e4ba385716f3,
  0xe38066356ec31c615155de543dbd124e970b9e34fc291cff,
  0xcd653cf07f1eafd1b3c29e074c9c1c896a8f68fc247bfadc,
  0xd4472a9b473aa48a8ce81849f3f56298332a256d18510a92,
  0xe09fae118c867264d0e6d889c2cdfd58371da6b92a7e5150,
  0xb0f69a6ab5c9bfffc51f3cb38156d1731a6e57281c57a319,
  0x7cd0d1932e6c89e70502ac1b43ea0b1e87aa1836046defa1,
  0x7829719102800cb87f377ca5984c94478d03c63e73234295,
  0x9be1fc55c5cbb467534787c3ea4d0990a228b9a35bb56fd1,
  0x3a7240761e6e3cc4bfacf9a5895ca16d7ad6172f3160e56f,
  0xf9548417508aa863b6eec8d5856495dd98caac5ca42b31cf,
  0xe8361f01ddc42bdcae3d929d37616a2d8005caa6347088f7,
  0x8fd4d37c35ad6dbccc1afa792fec3ecb54a6114aa919f5c5,
  0x9d6d87e0ca9d34c633d3daf54cf284d4ba920e085470bc72,
  0xaf1638f76e43e9f768ca30ee071b6a5492b21d44bd027a37,
  0x446a9ceaa010b20db1b628f0fab73a7ca25275835cc49e53,
  0x7e19093437f9beb205751be4286420cc5ec823e823b7a056,
  0x4654cddf45a2fbfa43e31490e2ea3b1ad9470ca29ac69b0a,
  0x157e8e2926caf810363f57bebabb452ed0ff15d170ed3643,
  0x9731bb5c8561e174245a80932b3a54758b8cba44aacd605d,
  0x3252ec24185ec082616712d704f2a6fcb625793c4fdd7c2,
  0x304b4d73c9ea227a53e66226eac0c17c187dc71baa7e0de1,
  0xec155d72f3d550728a18e3954b818aaf42d1ad934cf7c13,
  0x6a31b9f84a839e7b2c33a136672cec92e613982f4e6cb970,
  0x532c041becc81de457bb68dfd54f94ac704110cd63793f2c,
  0x38727eadccec5e48bcd66ae971103319d6d7a2da01d3120f,
  0xfb44f2badf3872f431b3aeaf6a07e02cc84032e2cb917388,
  0x4c76e7dde20c483206e3a4399650ca2dddbdb3e2284e0b86,
  0x9dfbd7881c26461f0826dcbb9ee210a9107f9935235a58b9,
  0xea10f295682c3409d626ca53c0010e0430d01cdbbc5fcded,
  0x3c2082a7f1463128b81ec01a39977acf03143be282d78599,
  0xf203d4286c1d0854382b88211bd60baadab6164fc70f40a2,
  0x8d337a0d31171a594fe9f9ab2a4df6f7428c9f9862d743cf,
  0xba9bf378856c069236034f9be935c5134c6d2729a9904e75,
  0xb7cc76735dbc151a0f0c760388589c4a33598a54e25ae2db,
  0x41df5ab9a87af2f2199cfa24bad29dba0bef20fa634f3639,
  0xa59b3a61f41137973501323136ef0080826d42efdae8d238,
  0x79b1df26dab710c14f05beca597f188ca5364fd44fdd4ca6,
  0xb171ca7cad15b7c5ddf8dc3950f7fcb69a092dd14308b403,
  0xc8f2157e552bb03008bb0fd46130cdcbeed2b7acc79b57a2,
  0xf80c2a1607435545b135a7da6c47d1d185ec7cf956278374,
  0x632843fab49b8de22ebb0aeed1762bdb26721b375202b95f,
  0xd403541c1494b2c6186722ce7d9f1f46c244f8387518cfeb,
  0xfe379182f3e45ce43d38f6e38b0c7b3850f1d25744f2a50,
  0xe359e4a2fa34edcd7ab2c48d76a843937fb822ec9257efe2,
  0xfa031fe08afc27532f87014f2fe0f228e632a81149062126,
  0xf4f3c0418c0b172209051829352895e9d1b5f1ed59fd13dd,
  0xdd4a0a2b94876b38248978237abf2d09c5596fd025f3dda2,
  0xd99226ba06dba2b4e51f9f7f609cdb26bfe1ab35c7cfe97b,
  0x5a71cc36f6eb97252bf1762a12aac25134bcd968c9335462,
  0x7ef4053ceb534da9ca77171413579c4b62e79c01987d152d,
  0x39758d0e786607d139e603eb8328a50d8f90b141f544ed35,
  0x5b82adbeb2de64853ffc873f3e9fa423b5c71c8544105596,
  0x1703901716891c4b644bb73fe945bcacb13ae9b5abd2ddc1,
  0xa1fef1b14272054dbe8edd4dda84e790215c15eaf91863bf,
  0x977e2842c87c53a2ccb9ba4182f5b4a47b96d2ec831f0f55,
  0xf4a7e0187e3ef869a7a6f84b9c1d9583f3150845fb237e25,
  0x91e6bc49ed231bfefa096529e7dd2fefa55880252d514518,
  0x529d806dbd164bc08646456fffa8eb023d3d821ce8c8c1c5,
  0x396ccfeb66bb696a1293f88e0da7c4073b56be6543c0ad11,
  0x76777528ac4010274716af5a748203c9c863bd09d382ed59,
  0x3989c07bfd860721f5f6bdc33af4517fe0f03f033e83e39,
  0xd2e50bf6f0231076bc2be68a766b1745c1f8bf4fb582a054,
  0xb51a2b3114514c0e31ac7a820d00b03f079bd0998267b08a,
  0x535138acf8cd13f6c7943e7468cd74488082570f1b1f0bed,
  0x28d118e0e8574f21e794111ea131796dafc7ee7dfcf05a9f,
  0xfe968f72fdb6be73a23265a1586e410cb5c29d6dd1f79308,
  0xc7c44ebf6ef6f57f7be09d6e72f12daca632c82d27bc65cd,
  0xf8014ba6fff67835b3a3caf7013f5f577284bfddea1e3a43,
  0x5a51ac7088b0df241dbedd1d85dc06514b7562c17a837099,
  0x43b018eaa023d24267afb59e4869dd0e9972d85e7c5de7f4,
  0xdc637d8afd2d23997f8ac5b6bc5eae54ce1e06ef813d37a7,
  0xb42a6b5485b7b2f66112a0ef56a058e281e868f29c99de30,
  0xf727c0a090cda65e7aee46c057ef7f4b7718f2cfc5814191,
  0xaf9e7ff0ba69b3e8292edd353839a34c04a8c8b7f1ded3da,
  0x33bd540c2539051cba3b2fb718fd2b46bd423e17fe01fd4b,
  0xae4de09b7f26d2a379ce9b6c7eb0c79612f5defc5bb8bbda,
  0xc5703c0583257ebb5b421917efb2bfe69754517f119b86c2,
  0x54aa4169c86e92aa2ddefaca01f7616b4075987851aef9ba,
  0x962d7161d036987a54ce1783a057a2c4b0b5547dfd290955,
  0xf018ead75827401c36711443c8d43f84750fd627f110091a,
  0xeac15bdc8e12401d0d8ede501a7da7d049e57e63bb22a4de,
  0x47241a12413a25deec7ebe1edff52790868960be7ff17b86,
  0xd564d8767537e20952ca44fa01f8266a0e508a2e95ae8228,
  0xf7e872ca2704d870b324d659a447f287aafbf0082439789f,
  0xb131596fcf7dae3bfdc54d6a5d3d6df96e4de4da90a4a645,
  0x594dbc240b5f0ccbea95bb555292d3fa9761aadb614b37f3,
  0xc6937fc540c5dd1d49b93c98376b603aaa45f677ca288957,
  0xfe3d9b5f7f7b6fd0fa89501458f769ae344443cd146fb996,
  0x9aaf393f9ea2e721de6219011613e1e258a436df91015c71,
  0x9d5b6dd3cfa99955f8025f88c3450ac18461e43f17d7c1f1,
  0x8c9f3f74b1800def2f0ccecf00b908b4f17a4a1bf050b250,
  0xec827fc47a0931dc58df37d0ae71b7d24be7485f0676d0e3,
  0xf3369697eae3795395b0b36bc837b60462263f70d27fcc30,
  0x17cd686b072e21f796a686d3bb48bf26545b1e97e962e886,
  0xe9f321ad11e8921b8e06dbd35bc34b14a8a647f634a17d2d,
  0x9b15179ec2ad1833479ac0838845088f1b35e035ea4399a5,
  0xfc48d97e94a627d12ab3e22630aafbe533aceae63f16fa09,
  0x81e8e153d6868e57fba23684788a55c249cbe7593298f5b4,
  0x93d3d5ea71f50de426c81c0fb4d6e06ec8df318a1a408f20,
  0x93db764f7e6bdd9166e631d1db28df7ac19237caf7a71f8c,
  0x5601749e9621b2871ebd4d5d317c37364ade586959e4b1a5,
  0x5a8735acc40d32e2f0524319eeb536d0fca7d2ffbcf877ce,
  0x8c2608a1202367a715d9cec0bb274018106d0b2790861e1f,
  0x5b7ef157ecdcf78d865ec037ffcb2d0238f394f425d36c,
  0x8fa02e342810b797c0fe0a7474802fab981baa571cb27d7c,
  0x451fe6407daeda52bec2139c063cf15d61d182ed931844de,
  0x713f21a52ad8a0a938b876d3411f6cae0032d533c69a4e4a,
  0xf6c0033d085ba4be5b432463bac9396680486d683e4b9e75,
  0xd03f42ad132cba721b53d41ee47b2963c240d72c47199c,
  0x9b6075b08da48dd1ae57bba7f2fc7f67dd2ed8cde1388786,
  0x1ed44ec05dd771f22fa4dc3ec6707949e04ac2d15e3fdbf8,
  0x3c393f3f0d44e4c08f78a03dc3aa3b32e2d2b8d91f618c26,
  0x682e30d64b8cc133bb8bbd6699d79c8e4adb3fb52fd4079a,
  0xaa7faf42298eb0435182ac5b36f0c41167664557ee6805a8,
  0x8cd275d8d304a9a447949fe8c29a94456d2376d67fa1e3e8,
  0x9538ea0f40fac52619393b0887bfb58e44c60d379388dcc4,
  0x5ecfc9db565cd4cd7e3185ce3c1293d787c99872689d6449,
  0xa3341af68ed74068e14289f1184ea7e43dd55b76d54d9fc1,
  0x2a125a67e59320ba12a64d78aacb0de587a1f4e4d3150695,
  0x315acca970295e93ec246054d2e0e2fe7e82d634786fdb5e,
  0xe1f1bd2d22563d3fcf9534eabf7ac2a7e41852663d856f9f,
  0xb2ca8d45089edee5293969f5f3e6143c1e329f71a1a23202,
  0x66d05e4603786c32a7d84936343797162f9a0dc545c83072,
  0x2aa538dbe4657e0e554a75a29b56c4bc84434ad89780dd23,
  0x2
]

/-- The chain of successive modular squares of X modulo the GF(2^256)
modulus, certifying the Frobenius orbit of X. -/
def sq256 : List Nat := [
  0x4,
  0x10,
  0x100,
  0x10000,
  0x100000000,
  0x10000000000000000,
  0x100000000000000000000000000000000,
  0x2000000000000000400000000000002000000000000000000000000000001,
  0x4000900d240a0934002800c200b4830002400410012010000400410012410001,
  0x5010e804915823e5019b472123010f3681500049141150241705109100051240,
  0x5134bb1f021866d94b69ea85790d1924cd51211f4725410740574324070603b6,
  0x70bc890e8aacdf8cc53da7ee38523c0852452738604f9f4f0d4977df171b5412,
  0xd51de9b0b139132ba7144dc97e48766a638e53c1ed18b1740b088bca1d1ff39f,
  0x342fcdf714feae866a626327af9bce6a122440811d07921dfa45242c53d70341,
  0xe27ce50b8abf156c3f88d10bc644ee1daa8704da19e02fcccb54811ade5337af,
  0xb5eac6d954ea63d67f7d3850f518148255ca563faa0a4c6a9812d8665b57b22e,
  0x53e773196c55a2e298487f42b93f81952617a2b3db511f8345da6eb6c651b8c2,
  0x9558aaa1289630ff5fd58b893890d32a3a2eaf710746fc823881eee2edaf241a,
  0x325244799fc8fa93e4251b0b6b6e9e4bae08a5823ed1a87d04f02ba79d4b8572,
  0x927441637bf767876e4ed09731c2488c0d3d60a7f8f655bc414005c0862d67bf,
  0x8e9a6a0b3cf5eac9847ecbb84f320e8611287527c12104642ab652003d90b24f,
  0xc431b41fb0c76a8c21908118c81f1edd64e6fa196842de37c8624b2eb613813e,
  0x49c218496574e68c91b4e79aef39040c07c36e288ffbadaa34b0c57fea412d,
  0xf11197653cc81e6cf7364f2a1a269940e44b274510cb5f25730839fc0f1bd689,
  0x18ed900947f8757828738118a217d9f92464901ea922af9dba4ebb2c773fb08d,
  0x1700df5c927c2c00627ca90c90ca6535ce5367b2189463d139c9b98c50a721ce,
  0x90ca100ba430bb3b69f26db41e9b40950fe490d72d85531c032936687753e199,
  0x901e0a5a6ebe312af441e70048c8e3230d6500fb02c35a544614ae8bf57d43c1,
  0x89618cd124cf92e6026beee571765348a9ab6efd0be6feac8c43ab7ebf94ef2f,
  0x318128cfe0cac047767aa1c74fa91a6c9642b649071d9c49320440437dbe17b1,
  0xf0aaf3ece516f250b837c0a88cc9bd5a58251b5ed900c5b06fa62e21e5cd1cd9,
  0x4c42618921e5011820076dba76f67952b697277e9982d70b97d78f547ff9fed3,
  0xa2fcf9520f5aa95987ca1b264165f198d027cd92fd8b062bae23c91e3fe82913,
  0x1eaedbb0028e45b45ea4497e12637df9eb0b491991077501aa4cf56bd5ef4e4a,
  0x5a526a0e8484c9c57ad5ef4271de1ddecfe910496f7284f54cbc8ad66ca33882,
  0xaf12ff8a7d324397d854b48a5bc028781b32d9cf4f936a04c30fc8594393181d,
  0x93480dec0cd5e1291a208b0f1b21bf833df7666eb95b33abc9679a16539a95dd,
  0x4daed7afed10fc531bc0df57c95388c0f4198034347f07503973268e21e42a1e,
  0xd3117c2385569ae9bb2058965b935c5882dfac99328e253acd388d60f3e1b67a,
  0x29904de0e50333aaa410bb76f28cd058aa067e89ce6d0d0e91574c43af017b21,
  0x163e7ca6118523dbfab420473729962e81a34ec121bcde5ed836cbf8af6ebf27,
  0x4a4edbb5ba1c40911095eef4f21f1f9b878843b80c6a90b8c6456e024a42c493,
  0x3172b8084d3157714ba0df22fdef33c6c192c8252d985a24210d116afb8bc0c5,
  0x3bcb5ca4941eebfd5a2dfb9cd0e3887aef7a0312f1278bd6a86d4e79c502f188,
  0x7dbbab05bc43d86a290eac95afa09112a8c15b85c4909cafe9956c4c427dbe9c,
  0xe0665198d6b5f4502e3472cb4fb18af304385e00eec794dff7140ab2ae4713fc,
  0xcce5f68cff2601e6d22944a76a38da972cdc0205d428a48af323fb2953c9ee5a,
  0xfb38d8eeb456819de2db0d80ddb1e7e1da7887d617d40cb7b0873be9f29dcfee,
  0xc0e845eece3f7736245fe069b7791e66a2f1aa6fe0f0c11552281c1c916942bd,
  0x8f20ea59e0718125c4494f71fd25bb729347e2a7db8e146d72343085b30eb977,
  0x6aa46584f97be7bfe055cedf43241efe0a2907260096bff16fcaa74dcc0d49f6,
  0xa1a4c3d0a2fa0e300292ab5be6b2238f37c0b92de94fff53b066ef74492bacb8,
  0xca370e5c4467e54c67b23f61b4510882d914d49a97e7442afeb2b165956ee568,
  0xa2c5d6d2296039f89f96e1f4f838f36e4789b4fd37346cfdb37e642a71601259,
  0x9c7dc9cb3140d43fdd42235b7684a3037fbcbbfa2a30ffc75db2e64255f1ae47,
  0xd8c6beea0af2d15df92229bb2a40bf93bca1effc68731b4cb256a51afd165dde,
  0x34ebac60c1e42ae573a7bc11fdaef5fc2323807f4052ccd90024b9e5aa744c4b,
  0xae0696448278834747f206980baf44bd040e751cfbcf4ce430759df78b951998,
  0xd68003bd4d796470303343b4640733e13950ebd8dac54cbacaef27dd7e36c7bf,
  0x310659d8e48d1b5ef81a98faf98a556aa67ea244b2bb945be29350e8a68f4893,
  0x531451df1be11f538a4d1aff2b3b9e468463c20c3220a976a47292669508916e,
  0x68340c234485db0787a253670d993294d0fb3226833ae9117a4d81cc5765c9ae,
  0x2beb98aab4ce01f72e2be109825c45b706563149d903de34e01a62f37cc7b0d1,
  0xbe3e2869f51cbdadc3badf06f6aca2f6eff71bce98d4db1e37b19763ab42b397,
  0xfb5909635b3abeac0753efed5f071d78f7190caab2f8faa8f683158cc0814296,
  0x979caf85da4e47ce0bcd742298679e533e567f3ffc008ae748f71f62e45aeee,
  0x14d481e434d5c98fc85fb6081d645db4ebd951d3536025fe50d145f2fb7fd30a,
  0x9bedfe3a89f2939081e5c8b1772b89271400943b4e6cbb266a3557deb963384f,
  0x81f818e8e949d2b007d421f5b5a4bd168a042b11a291cd6716da8072cfd2a64f,
  0xc4b9219567077f2ca77e60dbcf33c0af3950a405f6280d924f1e43fe0f60b773,
  0xe38bff6c1bbcdcc475942da7d4b69b1f24b9b4c7c64dfb8474ccf9b061531e52,
  0x55457618d302a4e1b65084d44c25269d0419279380a0bd39267f34194b653bbd,
  0x22afddecaa46f828b37432acaf24e44befb5444a22ad8f79fb4a2c4a8d20406a,
  0xba3f6b28902a2825a6aca1dd87b32e7ce787517662ca68a139e88f4762c57c81,
  0x263ac3f54076540977767e6f80b4358651d0b9fb11c319639ffd9b1b4afd3a05,
  0x9379bb840b5d0b47229f23ea188d9b4e6779f552533b279abfee55e85dfd4374,
  0xacda92667c70e41a2f539c94e3740cf85215b027652a66f1b5383c471537099f,
  0xde676aeb0c78bf64f2133621aec8761b637cd03686334048db7c50b96357eba9,
  0x401172491a16d214a488a70127447bd9ab4cad8c3c5a5e23a4b033896507df34,
  0x33a5b13830832227cf2424f1807e3e49886cfe89de1b7a688a568c0de946fc35,
  0x55328ea7f79251f07bd105d80d0b267c8bb5e111996d6ec0d9820c04e2405da0,
  0xe90fbd4c10917205115f4d43674febdabffe6b4e253d62b7fc4f67b0ad287a84,
  0x1a493115831161f10eb9ab224909830498832b63f1a857a33e4a3f7dd5c2480,
  0x4585e864e5ca6ed97a67d4f1f595e6fe6bf1f035c28b4d71500e89e8ed3f203c,
  0x76db046bfccbc61f5816dfce07cb7cccf6177a1aa788981a13ba6d5ddf32215c,
  0x609a5b219f887245816fe0614b58dfede0ae002533d3208c8ca1ea9627ad275d,
  0x1859603e5341bd123214ffdb2e0b62e97e56e11db1d02332d40c6e008082de64,
  0x8d701a7bacc0922667abfd1c7748720cbc5a4561b024c674e3096a06957ed382,
  0x9b13b62acbdf38765400a30042f0772e0a921d4a4ed909c3062cec8a04cc1e53,
  0x95b614580fc5a38421a952341f7db5da0bac9b9de531b29429eb25afbd482155,
  0xa1e436e6412f98c50fed515b680fae494cbbaade2f27da6e954e3e10eac49dcc,
  0xd8e5aba4cb67b2933c142475dac8b21d615dc4b6ac868d5f7e92adc09b7a22ec,
  0x1fad20bb190adbe20c535a0c203eab54cc084c93d1c38cfcde9d66916f61a762,
  0x2bdd8b46e60f2ab0eac1044f19ae9ffd7158b699692496dfa151afd5d3397eab,
  0x6b00c574a561d53dc082efd4f459bcb0b9c76be29cdfac651143b04c88c9a5a8,
  0xe0f0bd16fc491df5c2bef78ff2b6191ef1d8e375a6cdcae71ddb9272f546e59c,
  0xd322b41f3a698e0e3077925ae64769a22fc6a804b5676d20d8fa04a1dc86a482,
  0x6b68032bb6d74f01a81db6f6755b844fc77178235a2f2372748acd5f0cb5ca20,
  0x203881c6aa7d727785f560520e7a851f206ae2403bbf013e352b4a52c2597c1,
  0xf26b8071b8f93e738a3155a2917c1129de635ea47da29c2a576dfb30f698eac6,
  0x94b2d0f80a19c5fb44d870e9ea08d0e92adb43389ea0cf382c93bc50ddd7ff02,
  0xa27ccf195b827fc0945a6a09aafe185a37e87911c09bbda19b133e6494d69058,
  0x826cabd005cab9ad99623eba01d201c6da3b3ae35699f98126bffca6bcfe45bd,
  0x6b8ead4b361fad4f2943c47eb2db62ced7b3980f9743a4a219ab2fde05885419,
  0x41d1147cd24205a0b4e596d843d52774b2d7a506fb9f5fa2050820047b8d5bb4,
  0xc499cf50a0b50e92dc363bc306867db7d7ae662371ce7aa4f127f007010640c0,
  0x65f992deb68878ba26e7b36f0b50b01efc214fc67106c8ac1dde65840141cb63,
  0xc13c3a4d89c0ffad3ce8452eb978c57d46a1829a34681aefa8a33f84ceb2a387,
  0x9e754f66bf46019c3de1fff37f3d6216fc8a1b39b6fc90d59ef6f775a33e3b14,
  0xac5df865a805ede5d18b258eaa70f2432b51df95bf6d11178d26203859f98329,
  0x4d67724422457c758793efa4cc26d88476a38976b91f150732a4982fb1eb683,
  0xa2c92ea67d3a867dba0f14e5ad452fa93ae3353d2160a71a3ca80e0d7e87d5d6,
  0xcf265a38ef1f80411576f85e1b54e3e5c0c41b3f08eb07cfeae6a823e4b109ad,
  0x86d5593337f620bc699ed9dccb739dfecefe2bc561ec836aa248b631b235e652,
  0x6124d0d7e6655e9a1f26db5f09204fde23c4bb9992318b4eb718bbb963d9658,
  0x1851c1fcc55d28300cece95835c8c6f27a0c97deb60ad70d94b55b6e3491b135,
  0x50b4471fc79410be81120e6f3a9a24140a6b756d43ad47daadbbc3488f87baeb,
  0x680e0d135c382957676168db9c0a31e9eda842db4105e10a154cbdec51d6f32,
  0x16d3b902c845a8b36523029a99f8a2e608469959e39e303519ceb289ecb58039,
  0x30906084284828cdf47ed4607835cc788eacb7a261373f0a2a4cdc87a650ffe8,
  0x60082eac1e9c8a204a79a2f67875626a66ed5554f96143ae98c9a5366f593d29,
  0x7931711be45fd4459db413496cb67f67e58476465ccc6d893504baabe1ce4e45,
  0xfd3dd5368fc6d9c36a35a34530ebc33ef7ed18b596fc8aef44a476889b140461,
  0xc72c5cf925c7271eaf522bb9081cd59c209971ef46fe9789ac0974256bc7970c,
  0x51c63afd0c44faf6af0ea0b77a7bb848626c9652ca83e6defdff89c25acfba60,
  0x3d3ae4a938ec889d3b65b785c2218688d1d9dfa416974a0135baceda6dcfc78f,
  0xacb7186939f95ff7ccd18ac7162538fe3b2eedf19964e645da36826dfa491b6f,
  0x8f04d1ffe326f85780a4b766975bbd44ded3673b96155247d8f2ccfdaab77e33,
  0x8699d7876b957501d1811c6c6389d519310f2f4e79f37e5862772bfc25be0a6f,
  0x3acf134498d25f5b7f94c7cdf6fcf1eab2d54cc3b9f84cb3d823fdda34ec09d1,
  0x4ac82e66930d52a419e8a8f9ad6a245457620f8025bb6d851d7f1b10abac4a41,
  0xd6219c5384381bdbde1163cee11f8cd1cb73c15b88056c4ceb089b7e9163bf58,
  0x997ecaa0aca7fe03671d2842731a6220fb9303ceb6d2a486f463af17379d244b,
  0x903a9c7babeec7159c0f59bbc70e28a0e4816eb5801e53fddf026c336a9c5e90,
  0x4f9b55ca6976397248e186aaf61148f5214d33fc240039087cfe31f604ee91e5,
  0x16f7d0dece45154ec11d41ee920392a27cf70f1280aed13b3be571753bb28d33,
  0xd7b59b1527a497f6fb61e7ed713f0dd26a066320390dcaba4291abb0c86abdba,
  0xe2e6e8a91dd56501ebef2070cde6210b492bd7489f711da3046ad111c0e121f8,
  0x7029ec1327873d08882c43cc8d4f024a3b95161aaf1c046c97938dc446fc1ff2,
  0x5038a923da70842c50b377b711eab65d916750b08bc237cb58807b586d94f4cc,
  0x816ed3a80ba288cf4405b58c9cbc147f803a6e950b39326351794f879c13dc70,
  0x2fef36737af7cfff10b1d0e5d3e56e4b2ef4e839621b31781276b8fe7816fc0e,
  0xcb35aa215c60c5b119e6dde6ece85a7c2620f36a51db9c392fc0932cf3bc4689,
  0xf7d4c43546b94cc5bcf910e3d8d5fecec9d0da1840b94b6b4eab8e63deabff96,
  0xc5df16afb3b3220b81d10bdc82f6f8b64b2556b84ae9db0586f82be41117c5e1,
  0xd2e5e128c0155c952ff438f7904567216e8a9fbc7b7001cd8b77b394ec2765ba,
  0xb6eb4cab441e4507f13bd8b7fa61f8b83b4e96fea0e837e82f2c1eb93fb7ee76,
  0x9e3a72f42855fafd63d937b70a3abdf4c3a141bc0372b362904482666b908787,
  0x3d65834b2056a042543750a2c1b9541e6d369851f66e59479f28ab79145c4d9a,
  0x62be2a37844034bf499feab89d9d5bb2c6bf94ab8b05c1fdf83c4aaf43f42c5b,
  0x6f3fd26144f17da83be53fe01ac500ace4152d4523b0404fc40b694ede12ceb4,
  0xde2a21416575175af0e294102522a3747e4325412b8e5873bbad59ec365fef22,
  0x35f32df41d499db45c64d3be858906109302403908a3e9adea9fb12337b75d6,
  0xcce44045114895bcf445f9b491e9a4cb787cf92aa784c919045d2c04d71379d5,
  0xc41b70a5033ba2e145abbccfa5f6651898df97815e23bbb9528742ee7d8074d4,
  0xe4ac51546361a646525e8924042e0cc429c7948298e4da23dce256ab66268ff7,
  0xceab353535d230287c5fd91740f762318d2916c3ab311ea70ae108816e466f36,
  0x857f49bdf69fdeac8b478d321f36910392063c58f9f63a371f2432380be262d5,
  0x4303a22541f615cece3115fcc28c787efeedcc5295f0315451f0aacea33f30a5,
  0xfffa590f040d2f8a96914760db67b6753b98ea5e33bbf6e2438efe7f3679e8e0,
  0x5c5db516bfa722aa5e5cef47b0db911e4bf91652b48b14cfb9d1576ec0652138,
  0x177b6e3828383990bd2ff997080a79a6764a34e20c1036665790e7685d899160,
  0xb46e556a14ab613c4a97bbb8593bf04d688e13ea59ea7f8388687f8befefde47,
  0x4cf930ef027bdabed24770eea1bbd97eb3153b125751a7b8857176d52375f9a1,
  0xea24ec3f8dee23c90005ec60d8ea37a58fe5fc97ddf592b9984207ef0f6750e3,
  0x49cf4f39e88cca360dec6129f92963f7caa00747a655cc74ddb2d9e99460cc18,
  0xcd3980bf5b8f77456caf324eaae3958d785d61096ea60e536a18380783842431,
  0x88e5de6e6e664f85e81aaf933b9ea3c6f6dcec92bc43a7fd96c4f5244285a346,
  0xc97d282457f7b22193c8568d5e4e07b578ec4ba7bad303120770a51220e013f3,
  0x730c5d1eb32c4de32da9bbf94d2ab0c50c2de8c76f205d5ff75984b6ed208b6e,
  0x24f430edd323b26aa42a111f16a25017d14e870c5d8985083e23922f169d2270,
  0xdf49d7a48bc464c4b3d93db7021f3a0a038a05cb52efc78948a4bb74e264128e,
  0xd8b68aa7f93e1ac79b90cab013bb87bf6b50fd95696de8d9425aa5fd8cbe80a2,
  0x13bcbcd7e40da960d36af30d22b5579ab41156ffb7de5af7986317214b291e97,
  0x7cfcc1ea442c684656c884ff00b561f37843ae7e490d83bdf0745e5273e4edf9,
  0x67a5974d01ab28fc2dd381d6c23325c0da0697c3c939639ce86a077baf63179d,
  0xd635d839efbe7e6724bd615dd40ef6de5159e504acb9f9c965a839a1145ecb34,
  0xab9ac0c4f80bf021fd89d6cda3ad096c160dcc3f6528fa74d2fb422ed65e190a,
  0xf1f208b144f6e23961f08f5ad12c9336bd1faedbb414d00b2ca22bc8453bcc45,
  0x2aca99ba982a5f5a52f1c807c94429a6ea53be4aa251087108162a9a379c55ae,
  0xdaafbac1821998dd0556f009ab326a07cd4560061fc42e88fb67c5b89a3db055,
  0x79aa1d9a9be0a0e892e181f9468fa6ab2822adc8c166e81e884d2a5e86976a64,
  0x3ff9622b0033d95bf45532b01cefe956295a22402c3a52bd4f372faeb71c65ad,
  0xdb8280de0323de3f24860163916f47bcef9b663a6f22345711b8fdd888de643f,
  0x2eca6b4cc524c5b9f0c0fdc211a6effde065d31cd421713fc02aea1f4ae5ee04,
  0xd09cee0da63469c1f70debdab0c6ac4020404b762538839598dfd982a6eb3063,
  0xf63f602627bcb19ce60a00e6aade3f379185b0e41a57f313423965a32e1464da,
  0x65325a0c124aa91571ede9bc66e07d3ea87913d8bb4ea9bed7870aab20de9970,
  0x28bb956382e805aa1eb453b431947cceea589a9dc1b188d489ac270dcb0d805b,
  0xd5e7ae58f45cf9f6abdcb50c17a9390e23d59b6326e5e5b7e69dc220be171c70,
  0xc1505bc25cc91515f46476ff64fbee2c8246ea9bc029bf15533889304785164a,
  0x59643497f622158f6564438eada49ca0f1b46a0f2e8d59932dc2d3ef1fa80b96,
  0x1ad81e13fb4ec0d5372d7942392303ec6f320f0d60a405ceab9ea11744929de4,
  0x2b1b9b13c28f41702ddbfb99030fdd8c126e9c9f4c5b983636897d87af7678e3,
  0x99e497380129ff33051348fe72f2c2f545a62bf287d153e3ffc80875d3fcac50,
  0x86b3f829ee12e24b866b02bfc50abb832221212d0241b311b19662481e198e7d,
  0x34675e665ca86d15282eae2db368df7c29691acefadcb8a352ab0dda18cde6de,
  0xde88d394dd70047041948035ecf71c19ef3d2e5ad66b6ffceb8d63f8cf982b75,
  0xa4962c8afab87acb627e156461e75ca70e7788445702d45f3bfdd16f07497674,
  0xd09b2bf3717d219d8cacb4570f9ea3a81c07479223b42fa25ce89839d8e62a98,
  0xf9d81d59b6a7540fafd91b642ebf8b03225a3726af9bbd0cebf3fe7cd8fda064,
  0x4e813a51fdd20305fbbf19b3f0d05ae1f13b0e7ec7233479da586b1c016fc01c,
  0x1ca2854ff21a1a4ac0fb290479bc2f756cffb3947a1c4f2c25f8b3f4192b02ba,
  0x847785af070a50aac1f8b9b7d4a4a2fd9a72477c3ad6580fd55fb9af0f556fb2,
  0xafba78a0f591c44f24843db6c4b5d318bebd7706aea8274268421b1bb08a8e96,
  0x6882fbb3907d2dc47be997b6929e86578ea1dbfa36c07f3be926fda25fd0c876,
  0x483ebbbf4841f3a20f77f3c9e2ed9bae532ecab44091aa3d837ca6588ae9fdcb,
  0x5447fcee90fb87712fa2e6fd3d8db2fc41861674f1ba6446369e758f24d074c1,
  0x82234e2889b9bf274754db6b729acef9051f9022a79e7b598efa843cb5881981,
  0x1622ef78238ba496e5a02be2c445589689e439fc8ad9fce147af429480af3a91,
  0x936d319760650cf0af1e7f3e53f2da17d23d66c66c1c4f7d4cfbc2a1767d9ffd,
  0xdeea061da8038d0f6a38313d88a443d169fd9f9ba35926e526b4df405c3d34ed,
  0x5545f988cdd02c750151559ac21a188ae9f9bd14e439b8d9f1211f591ebb9583,
  0x7114910e2f18a315eacc8beedf910dbd9487895d9be5f7a67f8dfdd3b960d91e,
  0x3cdf26e76d60f430792ac71b8b258d0f17c5c6d1aa673ced9e7a5afef8a82d38,
  0x44e204fe6dd9fa9fa6973916441b32258727534ebf182fa2af25e29b8c711a68,
  0x9e34bbc2c7488a0ea52423afc90620c70732f15f4af2a81e01567d8b7ddfc61b,
  0x5af5482714d85164349cc689b4767fb866076b0905ae144a24cadd268ea8b9db,
  0xcc1613b5d91f19eb10126506341361f28d1c903544b1582a5f3a3040cdb97777,
  0x61182bae7adf34942a14f29882c2071abf09f2cd0236f2c91cf85faeb2768b85,
  0x9c634ced39757847927080f8ab2dc0ac421dab370e085c2c3a80a037deb92909,
  0x7a10844c44c56588bc488798a1092644d65fb8103102afff5846021d96ab4c22,
  0x7ce20685f2b65aea05f1c41c747d48ee8e3e243c49efd87e7118785c7cd2088c,
  0x12198c90badde734ae90c038601db31ba90375f9a60ce51869b21d39b009c3ce,
  0x89c05518f3815d94ef6b7f60fb75b180b802fdba05da86bb31497757a4d0b0a2,
  0x8b4baa5a3a7c00f31ea34f5ac7fc9d65f06f0e0c814939f5eda80004a222d60b,
  0x996f325dbb90d8dec4a49e50ca702c4e48addc24683cd4aa17f981b74fe0906e,
  0x3e96ec899f3fda704e58c8287bf2088b224551c39e27e4f777d4acdeb5c882b0,
  0xd3c3e92567b0e44cfd5163e6a29fea5c87b9f85c149b0ef9ffe7db0e393d4f80,
  0x85bfbb5da5c0be4865be0ef19834f007962ea9194c5b7ad9fbbb1368ad846885,
  0xdc52b146c77db63b01c0a5206f00e722d7192360a11f1161367b41e5171c42c8,
  0x6e9dec2d0a0e0ef4d1ab392b95e167fcc4e8eb9d6b270f70e8d8267d90b47b9a,
  0x1dab03e27251d7d8fe7ed53684c41d4d2e4ed062075b21df89d63c7c55b8b934,
  0x43b8678f94569d233c310b11963b6f814dd8d56a939e8319919c682c13a7cc50,
  0xb877b644ec9157f200a77d8d2fc7b38fef5b7ccb634088dfcc88116effaee860,
  0x1a569dbba35bfd85add2009bf6e08e8ef7bc88ba194ec87d67eb8a55a1c449cc,
  0xcf38d9a2f3c11da091d34315a78b5c242dc10a682ccbe6e8cdf5f3dc63e61d7a,
  0x2f6ef134510a1a8fbe609c4151f0d1816bbe89c5d549da65e2dcaca278edcce7,
  0xcd299971601240bae2f11d770ac5fad9f2a2717cbb739eeb3666910572ad2549,
  0xe26cb7d114855a65e73ffe2c87d2f253147e1cd57472b8a975cde68bef02e3ea,
  0x6d339aac4ba321d170bee54945fda61657edcbbb689d2b3466f0a8cf061320d5,
  0xd0dcb42437518d3f7762ed327a7ba9a3f4c8e485ee0f6cdcdd385c978d91b104,
  0x142a4e0575550b7a7f799be77d73300f6dd346432b80f4e9ba35e021af5c9458,
  0x71915afbbf01e9bdd927f23a90c5ac446d3fa1a4fb4d8f1dfae1e76597f1f197,
  0x41d53e12c9ba8f5f62f88bc22363cf76b18d5c12d02ef280f1804e7d4cd17896,
  0xe57093f3ae93a02dd8734e2da23b823c3f91c8990fdf5fd3f0b84ba2cb5791d9,
  0x19041de84723c4bc9b26781420903b312d409ef2ae94c6ae485a4342005fa245,
  0xcbe425b9f58b2c01946e7b4a7f152d8d0bc9ed47974d0053c934fcbc6967e5ab,
  0x864f8a78ff17df8a6014c90b8976211880135a2a94b7790176c618edb3abbe76,
  0xa3df29d3887a82d7ee8a8074a0559cdd90c93b0193c89279c59a70ec959d95fb,
  0xb884abef3c9feb683084df563c4840720826c0303212d3c8926dd88b7db78b22,
  0xccd20ff546a0ce5f01d41c2fe6234a57ffe8358e72540626531d9b754517ce8b,
  0x9ce39fa25cbf26686e33b5c52d4ed7ea048eef8071145904db77872145b659fe,
  0x1f9f9963f39f1622e11a5246d48d77aa631e9da614bb2c697e31ce4bf4d2962f,
  0xfee13c9973bd2f4674b032143eb131547dbee0c15af10cdd7fee0c15af10ccd5,
  0x2
]
theorem sq128_chain : sqChainOK 128 f128 2 sq128 = true := by decide

theorem sq128_len : sq128.length = 128 := by decide

theorem sq128_last : chainLast 2 sq128 = 2 := by decide

theorem sq192_chain : sqChainOK 192 f192 2 sq192 = true := by decide

theorem sq192_len : sq192.length = 192 := by decide

theorem sq192_last : chainLast 2 sq192 = 2 := by decide

theorem sq256_chain : sqChainOK 256 f256 2 sq256 = true := by decide

theorem sq256_len : sq256.length = 256 := by decide

theorem sq256_last : chainLast 2 sq256 = 2 := by decide

theorem f128_fermat : toPoly f128 ∣ (Polynomial.X ^ 2 ^ 128 - Polynomial.X) :=
  fermat_of_chain 128 f128 f128_facts.1 f128_facts.2 sq128 sq128_chain sq128_len
    sq128_last (by norm_num)

theorem f192_fermat : toPoly f192 ∣ (Polynomial.X ^ 2 ^ 192 - Polynomial.X) :=
  fermat_of_chain 192 f192 f192_facts.1 f192_facts.2 sq192 sq192_chain sq192_len
    sq192_last (by norm_num)

theorem f256_fermat : toPoly f256 ∣ (Polynomial.X ^ 2 ^ 256 - Polynomial.X) :=
  fermat_of_chain 256 f256 f256_facts.1 f256_facts.2 sq256 sq256_chain sq256_len
    sq256_last (by norm_num)

theorem f128_coprime64 :
    IsCoprime (Polynomial.X ^ 2 ^ 64 - Polynomial.X : Polynomial (ZMod 2)) (toPoly f128) := by
  have h2m : (2 : Nat) < 2 ^ 128 := by norm_num
  have hbase : toPoly f128 ∣ (toPoly 2 - Polynomial.X ^ 2 ^ 0) := by
    rw [toPoly_two, pow_zero, pow_one, sub_self]
    exact dvd_zero _
  have hpre : sqChainOK 128 f128 2 (List.take 64 sq128) = true :=
    sqChainOK_take 128 f128 sq128 2 64 sq128_chain
  have hspec := sqChain_spec 128 f128 f128_facts.1 f128_facts.2 (List.take 64 sq128) 2 0
    hpre h2m hbase
  have hlen : (List.take 64 sq128).length = 64 := by
    rw [List.length_take, sq128_len]
    norm_num
  rw [hlen] at hspec
  have hdvd : toPoly f128
      ∣ (toPoly (chainLast 2 (List.take 64 sq128)) - Polynomial.X ^ 2 ^ 64) := by
    have h0 := hspec.2
    rwa [Nat.zero_add] at h0
  apply coprime_X_pow_sub f128 (chainLast 2 (List.take 64 sq128)) 64 hdvd
  apply eea_gcd_one 258 128 f128 _ (by omega) (by omega) f128_facts.1 f128_facts.2
  · decide
  · exact Nat.xor_lt_two_pow hspec.1 h2m
  · decide

theorem f192_coprime96 :
    IsCoprime (Polynomial.X ^ 2 ^ 96 - Polynomial.X : Polynomial (ZMod 2)) (toPoly f192) := by
  have h2m : (2 : Nat) < 2 ^ 192 := by norm_num
  have hbase : toPoly f192 ∣ (toPoly 2 - Polynomial.X ^ 2 ^ 0) := by
    rw [toPoly_two, pow_zero, pow_one, sub_self]
    exact dvd_zero _
  have hpre : sqChainOK 192 f192 2 (List.take 96 sq192) = true :=
    sqChainOK_take 192 f192 sq192 2 96 sq192_chain
  have hspec := sqChain_spec 192 f192 f192_facts.1 f192_facts.2 (List.take 96 sq192) 2 0
    hpre h2m hbase
  have hlen : (List.take 96 sq192).length = 96 := by
    rw [List.length_take, sq192_len]
    norm_num
  rw [hlen] at hspec
  have hdvd : toPoly f192
      ∣ (toPoly (chainLast 2 (List.take 96 sq192)) - Polynomial.X ^ 2 ^ 96) := by
    have h0 := hspec.2
    rwa [Nat.zero_add] at h0
  apply coprime_X_pow_sub f192 (chainLast 2 (List.take 96 sq192)) 96 hdvd
  apply eea_gcd_one 386 192 f192 _ (by omega) (by omega) f192_facts.1 f192_facts.2
  · decide
  · exact Nat.xor_lt_two_pow hspec.1 h2m
  · decide

theorem f192_coprime64 :
    IsCoprime (Polynomial.X ^ 2 ^ 64 - Polynomial.X : Polynomial (ZMod 2)) (toPoly f192) := by
  have h2m : (2 : Nat) < 2 ^ 192 := by norm_num
  have hbase : toPoly f192 ∣ (toPoly 2 - Polynomial.X ^ 2 ^ 0) := by
    rw [toPoly_two, pow_zero, pow_one, sub_self]
    exact dvd_zero _
  have hpre : sqChainOK 192 f192 2 (List.take 64 sq192) = true :=
    sqChainOK_take 192 f192 sq192 2 64 sq192_chain
  have hspec := sqChain_spec 192 f192 f192_facts.1 f192_facts.2 (List.take 64 sq192) 2 0
    hpre h2m hbase
  have hlen : (List.take 64 sq192).length = 64 := by
    rw [List.length_take, sq192_len]
    norm_num
  rw [hlen] at hspec
  have hdvd : toPoly f192
      ∣ (toPoly (chainLast 2 (List.take 64 sq192)) - Polynomial.X ^ 2 ^ 64) := by
    have h0 := hspec.2
    rwa [Nat.zero_add] at h0
  apply coprime_X_pow_sub f192 (chainLast 2 (List.take 64 sq192)) 64 hdvd
  apply eea_gcd_one 386 192 f192 _ (by omega) (by omega) f192_facts.1 f192_facts.2
  · decide
  · exact Nat.xor_lt_two_pow hspec.1 h2m
  · decide

theorem f256_coprime128 :
    IsCoprime (Polynomial.X ^ 2 ^ 128 - Polynomial.X : Polynomial (ZMod 2)) (toPoly f256) := by
  have h2m : (2 : Nat) < 2 ^ 256 := by norm_num
  have hbase : toPoly f256 ∣ (toPoly 2 - Polynomial.X ^ 2 ^ 0) := by
    rw [toPoly_two, pow_zero, pow_one, sub_self]
    exact dvd_zero _
  have hpre : sqChainOK 256 f256 2 (List.take 128 sq256) = true :=
    sqChainOK_take 256 f256 sq256 2 128 sq256_chain
  have hspec := sqChain_spec 256 f256 f256_facts.1 f256_facts.2 (List.take 128 sq256) 2 0
    hpre h2m hbase
  have hlen : (List.take 128 sq256).length = 128 := by
    rw [List.length_take, sq256_len]
    norm_num
  rw [hlen] at hspec
  have hdvd : toPoly f256
      ∣ (toPoly (chainLast 2 (List.take 128 sq256)) - Polynomial.X ^ 2 ^ 128) := by
    have h0 := hspec.2
    rwa [Nat.zero_add] at h0
  apply coprime_X_pow_sub f256 (chainLast 2 (List.take 128 sq256)) 128 hdvd
  apply eea_gcd_one 514 256 f256 _ (by omega) (by omega) f256_facts.1 f256_facts.2
  · decide
  · exact Nat.xor_lt_two_pow hspec.1 h2m
  · decide

theorem f128_irreducible : Irreducible (toPoly f128) := by
  apply rabin_irreducible (toPoly f128) 128 (by omega)
    (toPoly_natDegree_modulus f128_facts.1 f128_facts.2)
    (toPoly_monic_modulus f128_facts.1 f128_facts.2)
    f128_fermat
  intro p hp hpm
  have hp2 := prime_dvd_128 p hp hpm
  subst hp2
  rw [show (128 : Nat) / 2 = 64 from by norm_num]
  exact f128_coprime64

theorem f192_irreducible : Irreducible (toPoly f192) := by
  apply rabin_irreducible (toPoly f192) 192 (by omega)
    (toPoly_natDegree_modulus f192_facts.1 f192_facts.2)
    (toPoly_monic_modulus f192_facts.1 f192_facts.2)
    f192_fermat
  intro p hp hpm
  rcases prime_dvd_192 p hp hpm with rfl | rfl
  · rw [show (192 : Nat) / 2 = 96 from by norm_num]
    exact f192_coprime96
  · rw [show (192 : Nat) / 3 = 64 from by norm_num]
    exact f192_coprime64

theorem f256_irreducible : Irreducible (toPoly f256) := by
  apply rabin_irreducible (toPoly f256) 256 (by omega)
    (toPoly_natDegree_modulus f256_facts.1 f256_facts.2)
    (toPoly_monic_modulus f256_facts.1 f256_facts.2)
    f256_fermat
  intro p hp hpm
  have hp2 := prime_dvd_256 p hp hpm
  subst hp2
  rw [show (256 : Nat) / 2 = 128 from by norm_num]
  exact f256_coprime128

/-- C3: for every non-zero element `a` of each field type (GF2p128, GF2p192,
GF2p256), `inv a` returns `some b` with `mul a b = 1`: the product of a
non-zero element with its computed inverse is the multiplicative identity,
because each field's modulus is irreducible over GF(2). -/
theorem claim_C3 :
    (∀ a : Nat, a ≠ 0 → a < 2 ^ 128 →
      ∃ b, GF2p128.inv a = some b ∧ b < 2 ^ 128 ∧ GF2p128.mul a b = 1) ∧
    (∀ a : Nat, a ≠ 0 → a < 2 ^ 192 →
      ∃ b, GF2p192.inv a = some b ∧ b < 2 ^ 192 ∧ GF2p192.mul a b = 1) ∧
    (∀ a : Nat, a ≠ 0 → a < 2 ^ 256 →
      ∃ b, GF2p256.inv a = some b ∧ b < 2 ^ 256 ∧ GF2p256.mul a b = 1) := by
  refine ⟨?_, ?_, ?_⟩
  · intro a ha0 ham
    exact modinv_spec 258 128 f128 a (by omega) (by omega) f128_facts.1 f128_facts.2
      f128_irreducible ha0 ham
  · intro a ha0 ham
    exact modinv_spec 386 192 f192 a (by omega) (by omega) f192_facts.1 f192_facts.2
      f192_irreducible ha0 ham
  · intro a ha0 ham
    exact modinv_spec 514 256 f256 a (by omega) (by omega) f256_facts.1 f256_facts.2
      f256_irreducible ha0 ham

/-- Witness for C3 at a = 1 in each of the three fields. -/
theorem claim_C3_witness :
    (∃ b, GF2p128.inv 1 = some b ∧ b < 2 ^ 128 ∧ GF2p128.mul 1 b = 1) ∧
    (∃ b, GF2p192.inv 1 = some b ∧ b < 2 ^ 192 ∧ GF2p192.mul 1 b = 1) ∧
    (∃ b, GF2p256.inv 1 = some b ∧ b < 2 ^ 256 ∧ GF2p256.mul 1 b = 1) :=
  ⟨claim_C3.1 1 one_ne_zero (by norm_num),
    claim_C3.2.1 1 one_ne_zero (by norm_num),
    claim_C3.2.2 1 one_ne_zero (by norm_num)⟩
